import Mathlib

/-!
Shallow embedding of the maze generator `dgllghr/dadalus` (Rust).

Source files modelled here:
* `src/maze.rs` — the wall-bit maze (`Maze`, `Cell` = `MazeCell` below) and the
  renderer `Maze::draw`.
* `src/wilsons.rs` — the Wilson's-algorithm generator: cell states, adjacency,
  the random walk, the carving re-traversal, cleanup, and emission.

Modelling conventions.
* `usize`/`u32` arithmetic is modelled with `Nat`.  Every subtraction performed
  by the source is guarded (`index - 1` behind `index % W != 0`, `index - W`
  behind `!(index < W)`, `H - 1` and `W - 1` behind non-emptiness), so natural
  subtraction agrees with the Rust values on the inputs the claims speak about.
* The `u8` wall-bit field only ever has its two low bits set (`|= 1`, `|= 2`),
  so a `Nat` models it exactly.
* Rust panics (`unwrap`, out-of-range indexing, the `unreachable!` arms) are
  modelled by returning `none`.
* The random source is externalised: the pre-shuffled candidate pool is a
  parameter `pool : List Nat` (popping the `Vec` from its back = taking the
  head of `pool`), and the per-call shuffle of the four-direction array is a
  parameter `dirs : Nat → List Direction` giving the array contents at the
  k-th call of `choose_random_adjacent`.  Quantifying over these parameters
  quantifies over all behaviours of the random source.
* The two unbounded `loop`s and the outer `while` are modelled with explicit
  fuel; exhausted fuel returns `none`.  "The call terminates and returns m"
  is rendered as "`generate … fuel = some m` for some fuel".
-/

namespace Dadalus

/-- Compass directions (src/wilsons.rs, `enum Direction`). -/
inductive Direction : Type
  | North
  | South
  | East
  | West
deriving DecidableEq, Repr

/-- A maze cell: the two wall bits packed into an integer
(src/maze.rs, `struct Cell { bits: u8 }`). -/
structure MazeCell : Type where
  bits : Nat
deriving DecidableEq, Repr

/-- src/maze.rs `Cell::new`. -/
def MazeCell.new (west_open north_open : Bool) : MazeCell :=
  ⟨(if west_open then 1 else 0) ||| (if north_open then 2 else 0)⟩

/-- src/maze.rs `Cell::west_open`: `bits & 1 > 0`. -/
def MazeCell.west_open (c : MazeCell) : Bool := decide (0 < c.bits &&& 1)

/-- src/maze.rs `Cell::set_west_open`: `bits |= 1`. -/
def MazeCell.set_west_open (c : MazeCell) : MazeCell := ⟨c.bits ||| 1⟩

/-- src/maze.rs `Cell::north_open`: `bits & 2 > 0`. -/
def MazeCell.north_open (c : MazeCell) : Bool := decide (0 < c.bits &&& 2)

/-- src/maze.rs `Cell::set_north_open`: `bits |= 2`. -/
def MazeCell.set_north_open (c : MazeCell) : MazeCell := ⟨c.bits ||| 2⟩

/-- The maze grid (src/maze.rs, `struct Maze`): row-major cells, width, height. -/
structure Maze : Type where
  cells : List MazeCell
  width : Nat
  height : Nat
deriving DecidableEq, Repr

/-- src/maze.rs `Maze::new`: `width * height` cells, all walls closed. -/
def Maze.new (width height : Nat) : Maze :=
  ⟨List.replicate (width * height) (MazeCell.new false false), width, height⟩

/-- Generator cell states (src/wilsons.rs, `enum Cell`). -/
inductive GCell : Type
  | Empty
  | InMaze (mc : MazeCell)
  | Walk (d : Direction)
deriving DecidableEq, Repr

/-- src/wilsons.rs `Generator::adjacent_index`.  The guard order matches the
Rust `match` arms exactly.  (For `W = 0` the Rust `index % self.width`
panics; that state is unreachable because `generate` returns early on an
empty grid, and every claim about this function assumes `1 ≤ W`.) -/
def adjacent_index (W H index : Nat) (direction : Direction) : Option Nat :=
  match direction with
  | .West => if index % W = 0 then none else some (index - 1)
  | .East => if index % W = W - 1 then none else some (index + 1)
  | .North => if index < W then none else some (index - W)
  | .South => if W * (H - 1) ≤ index then none else some (index + W)

/-- src/wilsons.rs `Generator::choose_random_adjacent`, after the shuffle:
scan the (already shuffled) direction array for the first direction with a
valid adjacent index.  `none` models the panics of the source: indexing
`directions[dir_idx]` past the end when no direction is valid (the loop
guard `dir_idx < directions.len()` does not prevent `directions[len]`),
and the final `adjacent.unwrap()`. -/
def choose_random_adjacent (W H from_idx : Nat) : List Direction → Option (Direction × Nat)
  | [] => none
  | d :: rest =>
    match adjacent_index W H from_idx d with
    | some a => some (d, a)
    | none => choose_random_adjacent W H from_idx rest

/-- src/wilsons.rs `Generator::choose_walk_start`: pop candidates (head of
`pool` = back of the Rust `Vec`) until one is found whose cell is not
`InMaze`; `some (none, _)` models pool exhaustion, outer `none` models the
panic of `self.cells[idx]` on an out-of-range candidate. -/
def choose_walk_start (cells : List GCell) : List Nat → Option (Option Nat × List Nat)
  | [] => some (none, [])
  | idx :: rest =>
    match cells.get? idx with
    | none => none
    | some (.InMaze _) => choose_walk_start cells rest
    | some _ => some (some idx, rest)

/-- The walk phase of src/wilsons.rs `Generator::generate` (the inner `loop`
at lines 78-89): push `curr` onto the scratch list, pick a random valid
neighbour, overwrite `curr` with `Walk(direction)`, stop when the neighbour
is already in the maze.  `k` counts calls of `choose_random_adjacent` so
that `dirs k` is the shuffled direction array of the k-th call.  Returns
the cells, the scratch list and the updated call counter. -/
def walkLoop (W H : Nat) (dirs : Nat → List Direction) :
    Nat → Nat → List GCell → List Nat → Nat → Option (List GCell × List Nat × Nat)
  | 0, _, _, _, _ => none
  | fuel + 1, k, cells, walk_indexes, curr_idx =>
    let walk_indexes' := walk_indexes ++ [curr_idx]
    match choose_random_adjacent W H curr_idx (dirs k) with
    | none => none
    | some (direction, adjacent_idx) =>
      let cells' := cells.set curr_idx (.Walk direction)
      match cells'.get? adjacent_idx with
      | some (.InMaze _) => some (cells', walk_indexes', k + 1)
      | some _ => walkLoop W H dirs fuel (k + 1) cells' walk_indexes' adjacent_idx
      | none => none

/-- The carving phase of src/wilsons.rs `Generator::generate` (the `loop` at
lines 97-120): re-traverse the walk by stored directions from the start;
a `Walk(d)` cell is overwritten with an `InMaze` cell whose wall bits are
`west_open = (d == West || last == Some(East))` and
`north_open = (d == North || last == Some(South))`; on reaching an `InMaze`
cell, open its wall on the entered side (`East` ⇒ west wall, `South` ⇒
north wall) and stop.  `none` models fuel exhaustion and the panics
(`unreachable!` on `Empty`, the `unwrap` of `adjacent_index`, indexing out
of range). -/
def carveLoop (W H : Nat) : Nat → List GCell → Nat → Option Direction → Option (List GCell)
  | 0, _, _, _ => none
  | fuel + 1, cells, curr_idx, last_direction =>
    match cells.get? curr_idx with
    | none => none
    | some (.Walk direction) =>
      let mc := MazeCell.new
        (direction == .West || last_direction == some .East)
        (direction == .North || last_direction == some .South)
      match adjacent_index W H curr_idx direction with
      | none => none
      | some next => carveLoop W H fuel (cells.set curr_idx (.InMaze mc)) next (some direction)
    | some (.InMaze mc) =>
      match last_direction with
      | some .East => some (cells.set curr_idx (.InMaze mc.set_west_open))
      | some .South => some (cells.set curr_idx (.InMaze mc.set_north_open))
      | _ => some cells
    | some .Empty => none

/-- The cleanup pass of src/wilsons.rs `Generator::generate` (lines 125-129):
reset every scratch-list cell that is still `Walk` to `Empty`. -/
def cleanup (cells : List GCell) (walk_indexes : List Nat) : List GCell :=
  walk_indexes.foldl
    (fun cs idx =>
      match cs.get? idx with
      | some (.Walk _) => cs.set idx .Empty
      | _ => cs)
    cells

/-- The outer `while let` loop of src/wilsons.rs `Generator::generate`
(lines 73-130): pick a walk start, walk, carve, clean up, repeat until the
candidate pool is exhausted.  The first `fuel` bounds the number of outer
iterations, `wfuel` is handed to each inner loop. -/
def outerLoop (W H : Nat) (dirs : Nat → List Direction) (wfuel : Nat) :
    Nat → Nat → List GCell → List Nat → Option (List GCell)
  | 0, _, _, _ => none
  | fuel + 1, k, cells, pool =>
    match choose_walk_start cells pool with
    | none => none
    | some (none, _) => some cells
    | some (some start_idx, pool') =>
      match walkLoop W H dirs wfuel k cells [] start_idx with
      | none => none
      | some (cells1, walk_indexes, k') =>
        match carveLoop W H wfuel cells1 start_idx none with
        | none => none
        | some cells2 => outerLoop W H dirs wfuel fuel k' (cleanup cells2 walk_indexes) pool'

/-- The emission loop of src/wilsons.rs `Generator::generate` (lines 134-141):
copy each generator cell's `InMaze` bits; any other state hits the
`unreachable!` (modelled as `none`). -/
def extractCells : List GCell → Option (List MazeCell)
  | [] => some []
  | .InMaze mc :: rest => (extractCells rest).map (mc :: ·)
  | .Empty :: _ => none
  | .Walk _ :: _ => none

/-- src/wilsons.rs `Generator::generate`.  `pool` is the candidate pool
after the initial shuffle (head = Rust `Vec` back); `dirs k` is the
direction array produced by the k-th in-walk shuffle; `fuel` bounds loop
iterations (any large enough fuel yields the run's true result).  The
`println!` of the generator state is a side effect with no bearing on the
returned maze and is not modelled. -/
def generate (W H : Nat) (pool : List Nat) (dirs : Nat → List Direction) (fuel : Nat) :
    Option Maze :=
  let cells0 := List.replicate (W * H) GCell.Empty
  if W * H = 0 then some (Maze.new 0 0)
  else
    match choose_walk_start cells0 pool with
    | none => none
    | some (none, _) => none
    | some (some initial_idx, pool1) =>
      let cells1 := cells0.set initial_idx (.InMaze (MazeCell.new false false))
      match outerLoop W H dirs fuel fuel 0 cells1 pool1 with
      | none => none
      | some cellsF =>
        match extractCells cellsF with
        | none => none
        | some mcs => some ⟨mcs, W, H⟩

/-! ### Basic facts about the wall bits -/

theorem MazeCell.west_open_new (w n : Bool) : (MazeCell.new w n).west_open = w := by
  cases w <;> cases n <;> decide

theorem MazeCell.north_open_new (w n : Bool) : (MazeCell.new w n).north_open = n := by
  cases w <;> cases n <;> decide

theorem MazeCell.west_open_testBit (c : MazeCell) : c.west_open = c.bits.testBit 0 := by
  rw [MazeCell.west_open, show (1 : Nat) = 2 ^ 0 from rfl, Nat.and_two_pow]
  cases h : c.bits.testBit 0 <;> simp [h]

theorem MazeCell.north_open_testBit (c : MazeCell) : c.north_open = c.bits.testBit 1 := by
  rw [MazeCell.north_open, show (2 : Nat) = 2 ^ 1 from rfl, Nat.and_two_pow]
  cases h : c.bits.testBit 1 <;> simp [h]

theorem MazeCell.west_open_set_west (c : MazeCell) : c.set_west_open.west_open = true := by
  rw [MazeCell.west_open_testBit, MazeCell.set_west_open]
  simp [Nat.testBit_lor]

theorem MazeCell.north_open_set_west (c : MazeCell) :
    c.set_west_open.north_open = c.north_open := by
  rw [MazeCell.north_open_testBit, MazeCell.north_open_testBit, MazeCell.set_west_open]
  simp [Nat.testBit_lor, show Nat.testBit 1 1 = false from rfl]

theorem MazeCell.north_open_set_north (c : MazeCell) : c.set_north_open.north_open = true := by
  rw [MazeCell.north_open_testBit, MazeCell.set_north_open]
  simp [Nat.testBit_lor, show Nat.testBit 2 1 = true from rfl]

theorem MazeCell.west_open_set_north (c : MazeCell) :
    c.set_north_open.west_open = c.west_open := by
  rw [MazeCell.west_open_testBit, MazeCell.west_open_testBit, MazeCell.set_north_open]
  simp [Nat.testBit_lor]

/-! ### C6 — `adjacent_index` -/

/-- C6.  For every grid with `W ≥ 1`, `H ≥ 1` and every in-range index `i`,
`adjacent_index i d` (a pure function) returns `none` exactly when `i` lies
on the border for `d` (West: `i % W = 0`; East: `i % W = W - 1`; North:
`i < W`; South: `i ≥ W * (H - 1)`), and otherwise returns the neighbour
index (`i - 1`, `i + 1`, `i - W`, `i + W` respectively). -/
theorem C6_adjacent_index_spec (W H i : Nat) (hW : 1 ≤ W) (hH : 1 ≤ H) (hi : i < W * H) :
    ((adjacent_index W H i .West = none ↔ i % W = 0)
      ∧ (i % W ≠ 0 → adjacent_index W H i .West = some (i - 1)))
    ∧ ((adjacent_index W H i .East = none ↔ i % W = W - 1)
      ∧ (i % W ≠ W - 1 → adjacent_index W H i .East = some (i + 1)))
    ∧ ((adjacent_index W H i .North = none ↔ i < W)
      ∧ (¬ i < W → adjacent_index W H i .North = some (i - W)))
    ∧ ((adjacent_index W H i .South = none ↔ W * (H - 1) ≤ i)
      ∧ (¬ W * (H - 1) ≤ i → adjacent_index W H i .South = some (i + W))) := by
  refine ⟨⟨?_, ?_⟩, ⟨?_, ?_⟩, ⟨?_, ?_⟩, ⟨?_, ?_⟩⟩ <;>
    simp only [adjacent_index] <;> split <;> simp_all

/-- Witness for C6 at a concrete input: `W = 3`, `H = 2`, `i = 4` (middle of
the bottom row). -/
theorem C6_adjacent_index_spec_witness :
    (1 ≤ 3 ∧ 1 ≤ 2 ∧ 4 < 3 * 2)
    ∧ adjacent_index 3 2 4 .West = some 3 ∧ adjacent_index 3 2 4 .East = some 5
      ∧ adjacent_index 3 2 4 .North = some 1 ∧ adjacent_index 3 2 4 .South = none :=
  ⟨by decide,
    ((C6_adjacent_index_spec 3 2 4 (by decide) (by decide) (by decide)).1.2 (by decide)),
    ((C6_adjacent_index_spec 3 2 4 (by decide) (by decide) (by decide)).2.1.2 (by decide)),
    ((C6_adjacent_index_spec 3 2 4 (by decide) (by decide) (by decide)).2.2.1.2 (by decide)),
    ((C6_adjacent_index_spec 3 2 4 (by decide) (by decide) (by decide)).2.2.2.1.mpr (by decide))⟩

/-! ### C8 and C10 — empty grids -/

/-- C8.  When `W * H = 0` the generator returns the empty maze `Maze.new 0 0`
at once.  The conclusion holds for every `pool`, `dirs` and `fuel`
uniformly, which expresses that no walk is performed and nothing is drawn
from the random source: the result does not depend on it. -/
theorem C8_empty_grid (W H : Nat) (h : W * H = 0)
    (pool : List Nat) (dirs : Nat → List Direction) (fuel : Nat) :
    generate W H pool dirs fuel = some (Maze.new 0 0) := by
  simp [generate, h]

/-- Witness for C8: the `0 × 0` grid. -/
theorem C8_empty_grid_witness :
    0 * 0 = 0 ∧ generate 0 0 [] (fun _ => []) 3 = some (Maze.new 0 0) :=
  ⟨rfl, C8_empty_grid 0 0 rfl [] (fun _ => []) 3⟩

/-- C10.  When one dimension is zero and the other is not, the returned maze
has both `width` and `height` equal to `0` (and no cells): the nonzero
dimension is discarded, the result is never a `W × 0` maze with `W ≠ 0`. -/
theorem C10_zero_area_discards_dims (W H : Nat) (h : W * H = 0)
    (pool : List Nat) (dirs : Nat → List Direction) (fuel : Nat) :
    ∃ m, generate W H pool dirs fuel = some m
      ∧ m.width = 0 ∧ m.height = 0 ∧ m.cells = [] := by
  refine ⟨Maze.new 0 0, ?_, rfl, rfl, rfl⟩
  simp [generate, h]

/-- Witness for C10 at the claim's example `W = 5`, `H = 0`. -/
theorem C10_zero_area_discards_dims_witness :
    5 * 0 = 0 ∧ ∃ m, generate 5 0 [0, 1] (fun _ => []) 3 = some m
      ∧ m.width = 0 ∧ m.height = 0 ∧ m.cells = [] :=
  ⟨rfl, C10_zero_area_discards_dims 5 0 rfl [0, 1] (fun _ => []) 3⟩

/-! ### C2 and C3 — the carving steps -/

/-- C2.  A carving step that finds `curr` in state `Walk d` overwrites it
with an `InMaze` cell whose wall bits are exactly
`west_open = (d = West ∨ last = some East)` and
`north_open = (d = North ∨ last = some South)`, then continues at the
adjacent cell in direction `d`.  For the first carved cell `last = none`,
so only the `d`-based disjunct can fire. -/
theorem C2_carve_walk_step (W H fuel : Nat) (cells : List GCell) (curr next : Nat)
    (last : Option Direction) (d : Direction)
    (hcell : cells.get? curr = some (.Walk d))
    (hnext : adjacent_index W H curr d = some next) :
    ∃ mc, carveLoop W H (fuel + 1) cells curr last
        = carveLoop W H fuel (cells.set curr (.InMaze mc)) next (some d)
      ∧ mc.west_open = (decide (d = .West) || decide (last = some .East))
      ∧ mc.north_open = (decide (d = .North) || decide (last = some .South)) := by
  refine ⟨MazeCell.new (d == .West || last == some .East)
      (d == .North || last == some .South), ?_, ?_, ?_⟩
  · simp only [carveLoop, hcell, hnext]
  · rw [MazeCell.west_open_new]
    cases d <;> rcases last with _ | (_ | _ | _ | _) <;> rfl
  · rw [MazeCell.north_open_new]
    cases d <;> rcases last with _ | (_ | _ | _ | _) <;> rfl

/-- Witness for C2 on a concrete state: a `1 × 2` grid whose top cell is
`Walk South`, carved with no previous direction. -/
theorem C2_carve_walk_step_witness :
    ([GCell.Walk .South, GCell.Empty].get? 0 = some (.Walk .South)
      ∧ adjacent_index 1 2 0 .South = some 1)
    ∧ ∃ mc, carveLoop 1 2 4 [GCell.Walk .South, GCell.Empty] 0 none
        = carveLoop 1 2 3 ([GCell.Walk .South, GCell.Empty].set 0 (.InMaze mc)) 1 (some .South)
      ∧ mc.west_open = (decide ((Direction.South) = .West) || decide ((none : Option Direction) = some .East))
      ∧ mc.north_open = (decide ((Direction.South) = .North) || decide ((none : Option Direction) = some .South)) :=
  ⟨⟨rfl, rfl⟩, C2_carve_walk_step 1 2 3 [GCell.Walk .South, GCell.Empty] 0 1 none .South rfl rfl⟩

/-- C3.  A carving step that finds `curr` already `InMaze mc` stops the
re-traversal (returns `some`), and the final cell array differs from the
current one at most at `curr`: entered moving East it is
`InMaze mc.set_west_open`, entered moving South it is
`InMaze mc.set_north_open`, and in every other case (last direction North,
West, or none) the array is returned unchanged. -/
theorem C3_carve_inmaze_stop (W H fuel : Nat) (cells : List GCell) (curr : Nat)
    (last : Option Direction) (mc : MazeCell)
    (hcell : cells.get? curr = some (.InMaze mc)) :
    carveLoop W H (fuel + 1) cells curr last
      = some (match last with
        | some .East => cells.set curr (.InMaze mc.set_west_open)
        | some .South => cells.set curr (.InMaze mc.set_north_open)
        | _ => cells) := by
  simp only [carveLoop, hcell]
  cases last with
  | none => rfl
  | some l => cases l <;> rfl

/-- Witness for C3 on a concrete state: entering an `InMaze` cell moving
East opens exactly that cell's west wall. -/
theorem C3_carve_inmaze_stop_witness :
    ([GCell.Walk .East, GCell.InMaze ⟨0⟩].get? 1 = some (.InMaze ⟨0⟩))
    ∧ carveLoop 9 9 4 [GCell.Walk .East, GCell.InMaze ⟨0⟩] 1 (some .East)
      = some [GCell.Walk .East, GCell.InMaze ⟨1⟩] :=
  ⟨rfl, C3_carve_inmaze_stop 9 9 3 [GCell.Walk .East, GCell.InMaze ⟨0⟩] 1 (some .East) ⟨0⟩ rfl⟩

/-! ### C7 — `choose_random_adjacent` never hits its fatal branch -/

/-- On a grid with at least two cells, every in-range cell has at least one
valid neighbour direction. -/
theorem exists_valid_adjacent (W H i : Nat) (hW : 1 ≤ W) (hH : 1 ≤ H)
    (h2 : 2 ≤ W * H) (hi : i < W * H) :
    ∃ d, (adjacent_index W H i d).isSome = true := by
  by_cases hw : 2 ≤ W
  · by_cases he : i % W = W - 1
    · have h0 : ¬ i % W = 0 := by omega
      exact ⟨.West, by simp only [adjacent_index]; rw [if_neg h0]; rfl⟩
    · exact ⟨.East, by simp only [adjacent_index]; rw [if_neg he]; rfl⟩
  · have hW1 : W = 1 := by omega
    subst hW1
    by_cases hn : i < 1
    · have hs : ¬ 1 * (H - 1) ≤ i := by omega
      exact ⟨.South, by simp only [adjacent_index]; rw [if_neg hs]; rfl⟩
    · exact ⟨.North, by simp only [adjacent_index]; rw [if_neg hn]; rfl⟩

/-- Whatever pair `choose_random_adjacent` returns, its second component is
the adjacent index of its first component. -/
theorem choose_random_adjacent_sound (W H i : Nat) :
    ∀ ds d a, choose_random_adjacent W H i ds = some (d, a) →
      adjacent_index W H i d = some a := by
  intro ds
  induction ds with
  | nil => intro d a h; exact absurd h (by simp [choose_random_adjacent])
  | cons d0 rest ih =>
    intro d a h
    rw [choose_random_adjacent] at h
    cases hadj : adjacent_index W H i d0 with
    | none => rw [hadj] at h; exact ih d a h
    | some a0 =>
      rw [hadj] at h
      obtain ⟨rfl, rfl⟩ : d0 = d ∧ a0 = a := by
        constructor <;> [exact congrArg Prod.fst (Option.some.inj h);
          exact congrArg Prod.snd (Option.some.inj h)]
      exact hadj

/-- The scan of the shuffled direction array succeeds as soon as some listed
direction is valid. -/
theorem choose_random_adjacent_isSome (W H i : Nat) :
    ∀ ds : List Direction, (∃ d ∈ ds, (adjacent_index W H i d).isSome = true) →
      (choose_random_adjacent W H i ds).isSome = true := by
  intro ds
  induction ds with
  | nil => rintro ⟨d, hd, _⟩; exact absurd hd (List.not_mem_nil d)
  | cons d0 rest ih =>
    rintro ⟨d, hd, hvalid⟩
    rw [choose_random_adjacent]
    cases hadj : adjacent_index W H i d0 with
    | some a0 => rfl
    | none =>
      rcases List.mem_cons.mp hd with rfl | hmem
      · rw [hadj] at hvalid; exact absurd hvalid (by simp)
      · exact ih ⟨d, hmem, hvalid⟩

/-- C7.  On every grid with `W ≥ 1`, `H ≥ 1` and `W * H ≥ 2` (no isolated
cell), for every in-range index `i` and every shuffle `ds` of the four
directions, `choose_random_adjacent` returns a direction together with the
valid neighbour index `adjacent_index i d`; the fatal no-valid-neighbour
branch (out-of-range indexing of the direction array followed by the
`unwrap`, modelled as `none`) is unreachable. -/
theorem C7_choose_random_adjacent_total (W H i : Nat) (ds : List Direction)
    (hW : 1 ≤ W) (hH : 1 ≤ H) (h2 : 2 ≤ W * H) (hi : i < W * H)
    (hperm : ds.Perm [.North, .South, .East, .West]) :
    ∃ d a, choose_random_adjacent W H i ds = some (d, a)
      ∧ adjacent_index W H i d = some a := by
  obtain ⟨d0, hd0⟩ := exists_valid_adjacent W H i hW hH h2 hi
  have hmem : d0 ∈ ds := hperm.mem_iff.mpr (by cases d0 <;> simp)
  have hsome := choose_random_adjacent_isSome W H i ds ⟨d0, hmem, hd0⟩
  cases h : choose_random_adjacent W H i ds with
  | none => rw [h] at hsome; exact absurd hsome (by simp)
  | some p =>
    obtain ⟨d, a⟩ := p
    exact ⟨d, a, rfl, choose_random_adjacent_sound W H i ds d a h⟩

/-- Witness for C7: the top-left cell of a `2 × 2` grid with the identity
shuffle; the scan skips North and returns South with neighbour `2`. -/
theorem C7_choose_random_adjacent_total_witness :
    (1 ≤ 2 ∧ 2 ≤ 2 * 2 ∧ 0 < 2 * 2
      ∧ [Direction.North, .South, .East, .West].Perm [.North, .South, .East, .West])
    ∧ ∃ d a, choose_random_adjacent 2 2 0 [.North, .South, .East, .West] = some (d, a)
      ∧ adjacent_index 2 2 0 d = some a :=
  ⟨by decide,
    C7_choose_random_adjacent_total 2 2 0 [.North, .South, .East, .West]
      (by decide) (by decide) (by decide) (by decide) (by decide)⟩

/-! ### C5 — termination

The claim quantifies over *every* random source.  That fails: a random
source may steer the walk back and forth between two free cells forever,
so the inner `loop` of `generate` never exits.  The adversarial source
below does exactly that on a `2 × 2` grid.  What does hold is that the
*outer* loop strictly shrinks the candidate pool at every iteration, so
only a walk phase can run forever. -/

/-- An adversarial direction-shuffle stream for the `2 × 2` grid: from cell
`0` always walk East to cell `1`, from cell `1` always walk West back to
cell `0`.  Every entry is a genuine permutation of the four directions, so
this is a possible behaviour of the random source. -/
def advDirs : Nat → List Direction := fun k =>
  if k % 2 = 0 then [.East, .North, .South, .West] else [.West, .North, .South, .East]

/-- On the `2 × 2` grid with the adversarial stream, the walk ping-pongs
between cells `0` and `1` and never reaches the maze, for any fuel. -/
theorem advDirs_walkLoop_none :
    ∀ fuel k (cells : List GCell) (wis : List Nat) (curr : Nat),
      cells.length = 4 →
      ((k % 2 = 0 ∧ curr = 0
          ∧ (cells.get? 1 = some .Empty ∨ cells.get? 1 = some (.Walk .West)))
        ∨ (k % 2 = 1 ∧ curr = 1 ∧ cells.get? 0 = some (.Walk .East))) →
      walkLoop 2 2 advDirs fuel k cells wis curr = none := by
  intro fuel
  induction fuel with
  | zero => intro k cells wis curr _ _; rfl
  | succ fuel ih =>
    rintro k cells wis curr hlen (⟨hk, rfl, hcell⟩ | ⟨hk, rfl, hcell⟩)
    · have hdirs : advDirs k = [.East, .North, .South, .West] := by
        simp [advDirs, hk]
      have hchoose : choose_random_adjacent 2 2 0 (advDirs k) = some (.East, 1) := by
        rw [hdirs]; rfl
      rw [walkLoop]
      simp only [hchoose]
      have hget : (cells.set 0 (GCell.Walk .East)).get? 1 = cells.get? 1 :=
        List.get?_set_ne _ cells (by decide)
      rcases hcell with hc | hc <;>
        · rw [hget, hc]
          exact ih (k + 1) (cells.set 0 (.Walk .East)) (wis ++ [0]) 1
            (by simpa using hlen)
            (Or.inr ⟨by omega, rfl,
              List.get?_set_eq_of_lt _ (by omega)⟩)
    · have hdirs : advDirs k = [.West, .North, .South, .East] := by
        have : ¬ k % 2 = 0 := by omega
        simp [advDirs, this]
      have hchoose : choose_random_adjacent 2 2 1 (advDirs k) = some (.West, 0) := by
        rw [hdirs]; rfl
      rw [walkLoop]
      simp only [hchoose]
      have hget : (cells.set 1 (GCell.Walk .West)).get? 0 = cells.get? 0 :=
        List.get?_set_ne _ cells (by decide)
      rw [hget, hcell]
      exact ih (k + 1) (cells.set 1 (.Walk .West)) (wis ++ [1]) 0
        (by simpa using hlen)
        (Or.inl ⟨by omega, rfl, Or.inr (List.get?_set_eq_of_lt _ (by omega))⟩)

/-- The generator state after seeding cell `3` of the `2 × 2` grid. -/
def advCells1 : List GCell := [.Empty, .Empty, .Empty, .InMaze (MazeCell.new false false)]

theorem advDirs_outerLoop_none :
    ∀ fuel wfuel, outerLoop 2 2 advDirs wfuel fuel 0 advCells1 [0, 1, 2] = none := by
  intro fuel wfuel
  cases fuel with
  | zero => rfl
  | succ fuel =>
    have hcs : choose_walk_start advCells1 [0, 1, 2] = some (some 0, [1, 2]) := rfl
    have hwalk := advDirs_walkLoop_none wfuel 0 advCells1 [] 0 rfl (Or.inl ⟨rfl, rfl, Or.inl rfl⟩)
    simp only [outerLoop, hcs, hwalk]

/-- On the adversarial input, `generate` returns `none` at every fuel. -/
theorem advDirs_generate_none :
    ∀ fuel, generate 2 2 [3, 0, 1, 2] advDirs fuel = none := by
  intro fuel
  have h4 : ¬ (2 * 2 = 0) := by decide
  have hcs : choose_walk_start (List.replicate (2 * 2) GCell.Empty) [3, 0, 1, 2]
      = some (some 3, [0, 1, 2]) := rfl
  have hset : (List.replicate (2 * 2) GCell.Empty).set 3
      (.InMaze (MazeCell.new false false)) = advCells1 := rfl
  simp only [generate, if_neg h4, hcs, hset, advDirs_outerLoop_none fuel fuel]

/-- C5 counterexample.  On the concrete input `W = H = 2`, with the shuffled
pool `[3, 0, 1, 2]` and the adversarial (but legitimate) direction stream
`advDirs`, this run of `Generator::generate` never returns a maze — the
walk loop ping-pongs between two free cells forever (`generate` is `none`
at every fuel) — so the claim "for every random source the call terminates"
is false as stated. -/
theorem C5_counterexample :
    (∃ fuel m, generate 2 2 [3, 0, 1, 2] advDirs fuel = some m) ↔ False := by
  constructor
  · rintro ⟨fuel, m, h⟩
    rw [advDirs_generate_none fuel] at h
    exact Option.noConfusion h
  · intro h
    exact h.elim

/-- Popping a walk start always removes at least one candidate. -/
theorem choose_walk_start_shrinks (cells : List GCell) :
    ∀ (pool rest : List Nat) (i : Nat),
      choose_walk_start cells pool = some (some i, rest) → rest.length < pool.length := by
  intro pool
  induction pool with
  | nil => intro rest i h; exact absurd h (by simp [choose_walk_start])
  | cons idx tl ih =>
    intro rest i h
    rw [choose_walk_start] at h
    cases hget : cells.get? idx with
    | none => rw [hget] at h; exact absurd h (by simp)
    | some c =>
      rw [hget] at h
      cases c with
      | InMaze mc => exact Nat.lt_trans (ih rest i h) (by simp)
      | Empty =>
        obtain ⟨-, rfl⟩ : some idx = some i ∧ tl = rest := by
          constructor <;> [exact congrArg Prod.fst (Option.some.inj h);
            exact congrArg Prod.snd (Option.some.inj h)]
        simp
      | Walk d =>
        obtain ⟨-, rfl⟩ : some idx = some i ∧ tl = rest := by
          constructor <;> [exact congrArg Prod.fst (Option.some.inj h);
            exact congrArg Prod.snd (Option.some.inj h)]
        simp

theorem outer_fuel_irrelevant :
    ∀ n (pool : List Nat), pool.length ≤ n →
      ∀ W H dirs wfuel k cells F F', pool.length + 1 ≤ F → pool.length + 1 ≤ F' →
        outerLoop W H dirs wfuel F k cells pool = outerLoop W H dirs wfuel F' k cells pool := by
  intro n
  induction n with
  | zero =>
    intro pool hlen W H dirs wfuel k cells F F' hF hF'
    have hnil : pool = [] := List.eq_nil_of_length_eq_zero (Nat.le_zero.mp hlen)
    subst hnil
    cases F with
    | zero => omega
    | succ f =>
      cases F' with
      | zero => omega
      | succ f' => rfl
  | succ n ih =>
    intro pool hlen W H dirs wfuel k cells F F' hF hF'
    cases F with
    | zero => omega
    | succ f =>
      cases F' with
      | zero => omega
      | succ f' =>
        cases hcs : choose_walk_start cells pool with
        | none => simp only [outerLoop, hcs]
        | some p =>
          obtain ⟨os, pool'⟩ := p
          cases os with
          | none => simp only [outerLoop, hcs]
          | some s =>
            cases hw : walkLoop W H dirs wfuel k cells [] s with
            | none => simp only [outerLoop, hcs, hw]
            | some tr =>
              obtain ⟨cells1, wis, k'⟩ := tr
              cases hc : carveLoop W H wfuel cells1 s none with
              | none => simp only [outerLoop, hcs, hw, hc]
              | some cells2 =>
                have hshrink := choose_walk_start_shrinks cells pool pool' s hcs
                simp only [outerLoop, hcs, hw, hc]
                exact ih pool' (by omega) W H dirs wfuel k' (cleanup cells2 wis) f f'
                  (by omega) (by omega)

/-- C5 amended.  As the counterexample shows, `generate` does not return for
*every* random source: a source that keeps a walk away from the maze makes
the walk phase run forever.  What is true is the outer-loop half of the
claim: every outer-loop iteration strictly reduces the unvisited candidate
pool, so the outer loop of `generate` needs at most `pool.length + 1`
iterations — running it with any fuel of at least `pool.length + 1` gives
the same result, and only a non-terminating walk (or carve) phase can keep
the whole call from returning. -/
theorem C5_amended_outer_bound (W H : Nat) (dirs : Nat → List Direction)
    (wfuel k : Nat) (cells : List GCell) (pool : List Nat) (F : Nat)
    (hF : pool.length + 1 ≤ F) :
    outerLoop W H dirs wfuel F k cells pool
      = outerLoop W H dirs wfuel (pool.length + 1) k cells pool :=
  outer_fuel_irrelevant pool.length pool (Nat.le_refl _) W H dirs wfuel k cells F
    (pool.length + 1) hF (Nat.le_refl _)

/-- Witness for the amended C5 on a concrete state: a seeded `1 × 1` grid
with pool `[0]`; fuel `7` and fuel `2` agree. -/
theorem C5_amended_outer_bound_witness :
    ([(0 : Nat)].length + 1 ≤ 7)
    ∧ outerLoop 1 1 (fun _ => []) 3 7 0 [.InMaze (MazeCell.new false false)] [0]
      = outerLoop 1 1 (fun _ => []) 3 ([(0 : Nat)].length + 1) 0
          [.InMaze (MazeCell.new false false)] [0] :=
  ⟨by decide,
    C5_amended_outer_bound 1 1 (fun _ => []) 3 0 [.InMaze (MazeCell.new false false)] [0] 7
      (by decide)⟩

/-! ### C9 — `Maze::draw`

The renderer strokes one straight segment per drawn wall.  The observable
behaviour modelled here is the sequence of stroked segments, in emission
order; the `tiny_skia` pixmap, stroking and PNG encoding are the external
rasterizer.  Coordinates are the exact products the source computes in
`u32`/`f64` before the final `f32` cast (`u32 → f64` is exact; the lossy
`f64 → f32` rounding of huge coordinates is a property of the rasterizer
interface, not of which walls are emitted). -/

/-- A stroked wall segment: `move_to (x0, y0)` followed by `line_to (x1, y1)`. -/
structure Seg : Type where
  x0 : Nat
  y0 : Nat
  x1 : Nat
  y1 : Nat
deriving DecidableEq, Repr

/-- The per-cell body of the double loop in src/maze.rs `Maze::draw`
(lines 37-72): skip the cell when both walls are open (`continue`),
otherwise emit the north wall unless `north_open` or the cell is `(0,0)`
(entrance cutout), then the west wall unless `west_open`.  An out-of-range
index (impossible when `cells.length = width * height`) panics in Rust and
emits nothing here. -/
def drawCellSegs (m : Maze) (s x y : Nat) : List Seg :=
  match m.cells.get? (y * m.width + x) with
  | none => []
  | some cell =>
    if cell.north_open && cell.west_open then []
    else
      (if !(cell.north_open || (decide (x = 0) && decide (y = 0))) then
        [⟨x * s, y * s, (x + 1) * s, y * s⟩] else [])
      ++ (if !cell.west_open then [⟨x * s, y * s, x * s, (y + 1) * s⟩] else [])

/-- src/maze.rs `Maze::draw`, as the list of stroked segments: the per-cell
pass in row-major order, then the south border (stopping at `(W-1)·s` to
leave the exit gap under cell `(W-1, H-1)`), then the east border. -/
def Maze.draw (m : Maze) (s : Nat) : List Seg :=
  ((List.range m.height).flatMap fun y => (List.range m.width).flatMap fun x =>
      drawCellSegs m s x y)
    ++ [⟨0, m.height * s, (m.width - 1) * s, m.height * s⟩]
    ++ [⟨m.width * s, 0, m.width * s, m.height * s⟩]

/-- The per-cell segments exactly as claim C9 words them: the north segment
unless the cell is `north_open` or the cell is `(0, 0)`, then the west
segment unless the cell is `west_open`. -/
def specCellSegs (m : Maze) (s x y : Nat) : List Seg :=
  match m.cells.get? (y * m.width + x) with
  | none => []
  | some cell =>
    (if ¬(cell.north_open = true ∨ (x = 0 ∧ y = 0)) then
      [⟨x * s, y * s, (x + 1) * s, y * s⟩] else [])
    ++ (if ¬(cell.west_open = true) then [⟨x * s, y * s, x * s, (y + 1) * s⟩] else [])

/-- The segment list exactly as claim C9 words it: the per-cell segments in
row-major order, then the south border segment from `(0, H·s)` to
`((W-1)·s, H·s)` and the east border segment from `(W·s, 0)` to
`(W·s, H·s)`. -/
def drawSpecSegs (m : Maze) (s : Nat) : List Seg :=
  ((List.range m.height).flatMap fun y => (List.range m.width).flatMap fun x =>
      specCellSegs m s x y)
    ++ [⟨0, m.height * s, (m.width - 1) * s, m.height * s⟩]
    ++ [⟨m.width * s, 0, m.width * s, m.height * s⟩]

theorem drawCellSegs_eq_spec (m : Maze) (s x y : Nat) :
    drawCellSegs m s x y = specCellSegs m s x y := by
  rw [drawCellSegs, specCellSegs]
  cases m.cells.get? (y * m.width + x) with
  | none => rfl
  | some cell =>
    cases hn : cell.north_open <;> cases hw : cell.west_open <;>
      by_cases hx : x = 0 <;> by_cases hy : y = 0 <;>
        simp [hn, hw, hx, hy]

/-- C9.  For every maze with `W ≥ 1`, `H ≥ 1` and every cell size `s`,
`Maze.draw` emits exactly the segments the claim lists, in the claim's
order: per cell the north segment from `(x·s, y·s)` to `((x+1)·s, y·s)`
unless `north_open` or `(x, y) = (0, 0)`, and the west segment from
`(x·s, y·s)` to `(x·s, (y+1)·s)` unless `west_open`; then the south border
from `(0, H·s)` to `((W-1)·s, H·s)` (exit gap under cell `(W-1, H-1)`) and
the east border from `(W·s, 0)` to `(W·s, H·s)`.  (The source's `continue`
when both walls are open emits nothing, which coincides with both
per-cell segments being suppressed.) -/
theorem C9_draw_segments (m : Maze) (s : Nat) (hW : 1 ≤ m.width) (hH : 1 ≤ m.height) :
    Maze.draw m s = drawSpecSegs m s := by
  rw [Maze.draw, drawSpecSegs]
  simp only [drawCellSegs_eq_spec]

/-- Witness for C9: a concrete `2 × 1` maze whose right cell has an open
west wall (the spec's 2×1 scenario). -/
theorem C9_draw_segments_witness :
    (1 ≤ (Maze.mk [⟨0⟩, ⟨1⟩] 2 1).width ∧ 1 ≤ (Maze.mk [⟨0⟩, ⟨1⟩] 2 1).height)
    ∧ Maze.draw (Maze.mk [⟨0⟩, ⟨1⟩] 2 1) 10 = drawSpecSegs (Maze.mk [⟨0⟩, ⟨1⟩] 2 1) 10 :=
  ⟨by decide, C9_draw_segments (Maze.mk [⟨0⟩, ⟨1⟩] 2 1) 10 (by decide) (by decide)⟩

/-! ### Generator-state predicates and preservation lemmas -/

/-- The generator cell at index `i` is in state `InMaze`. -/
def gInMaze (cells : List GCell) (i : Nat) : Prop :=
  ∃ mc, cells.get? i = some (.InMaze mc)

theorem lt_of_get?_some {α : Type} {l : List α} {n : Nat} {a : α}
    (h : l.get? n = some a) : n < l.length :=
  (List.get?_eq_some.mp h).choose

/-- Overwriting a non-`InMaze` cell with a `Walk` cell changes no `InMaze`
cell. -/
theorem set_walk_inmaze_iff (cells : List GCell) (curr : Nat) (d : Direction)
    (hcur : ¬ gInMaze cells curr) (i : Nat) (mc : MazeCell) :
    (cells.set curr (.Walk d)).get? i = some (.InMaze mc)
      ↔ cells.get? i = some (.InMaze mc) := by
  by_cases hc : curr = i
  · subst hc
    rw [List.get?_set_eq]
    cases hg : cells.get? curr with
    | none => simp
    | some c =>
      simp only [Option.map_eq_map, Option.map_some', Option.some.injEq]
      constructor
      · intro h; exact absurd h (by simp)
      · intro h; exact absurd ⟨mc, by rw [hg, h]⟩ hcur
  · rw [List.get?_set_ne _ cells hc]

/-- The walk phase does not touch `InMaze` cells, in either direction: a cell
is `InMaze mc` after the walk exactly when it was before.  It also keeps
the cell-array length. -/
theorem walkLoop_inmaze_iff (W H : Nat) (dirs : Nat → List Direction) :
    ∀ fuel k cells wis curr cells1 wis1 k1,
      ¬ gInMaze cells curr →
      walkLoop W H dirs fuel k cells wis curr = some (cells1, wis1, k1) →
      cells1.length = cells.length
        ∧ ∀ i mc, (cells1.get? i = some (.InMaze mc) ↔ cells.get? i = some (.InMaze mc)) := by
  intro fuel
  induction fuel with
  | zero => intro k cells wis curr cells1 wis1 k1 _ h; exact absurd h (by simp [walkLoop])
  | succ fuel ih =>
    intro k cells wis curr cells1 wis1 k1 hcur h
    rw [walkLoop] at h
    cases hch : choose_random_adjacent W H curr (dirs k) with
    | none => rw [hch] at h; exact absurd h (by simp)
    | some pr =>
      obtain ⟨d, a⟩ := pr
      simp only [hch] at h
      cases hget : (cells.set curr (.Walk d)).get? a with
      | none => simp only [hget] at h; exact Option.noConfusion h
      | some c =>
        cases c with
        | InMaze mc =>
          simp only [hget] at h
          obtain ⟨rfl, -, -⟩ :
              cells.set curr (.Walk d) = cells1 ∧ wis ++ [curr] = wis1 ∧ k + 1 = k1 := by
            refine ⟨congrArg (fun t => t.1) (Option.some.inj h), ?_, ?_⟩
            · exact congrArg (fun t => t.2.1) (Option.some.inj h)
            · exact congrArg (fun t => t.2.2) (Option.some.inj h)
          exact ⟨by simp, fun i mc' => set_walk_inmaze_iff cells curr d hcur i mc'⟩
        | Empty =>
          simp only [hget] at h
          have hcur' : ¬ gInMaze (cells.set curr (.Walk d)) a := by
            rintro ⟨mc, hmc⟩; rw [hget] at hmc; cases hmc
          obtain ⟨hlen, hiff⟩ := ih (k + 1) _ _ a cells1 wis1 k1 hcur' h
          refine ⟨by simpa using hlen, fun i mc' => ?_⟩
          rw [hiff i mc', set_walk_inmaze_iff cells curr d hcur i mc']
        | Walk d0 =>
          simp only [hget] at h
          have hcur' : ¬ gInMaze (cells.set curr (.Walk d)) a := by
            rintro ⟨mc, hmc⟩; rw [hget] at hmc; cases hmc
          obtain ⟨hlen, hiff⟩ := ih (k + 1) _ _ a cells1 wis1 k1 hcur' h
          refine ⟨by simpa using hlen, fun i mc' => ?_⟩
          rw [hiff i mc', set_walk_inmaze_iff cells curr d hcur i mc']

/-- The carving phase never destroys an `InMaze` cell (it may add bits to
the final one), and keeps the length. -/
theorem carveLoop_inmaze_sticky (W H : Nat) :
    ∀ fuel cells curr last cells2,
      carveLoop W H fuel cells curr last = some cells2 →
      cells2.length = cells.length
        ∧ ∀ i mc, cells.get? i = some (.InMaze mc) → ∃ mc', cells2.get? i = some (.InMaze mc') := by
  intro fuel
  induction fuel with
  | zero => intro cells curr last cells2 h; exact absurd h (by simp [carveLoop])
  | succ fuel ih =>
    intro cells curr last cells2 h
    rw [carveLoop] at h
    cases hget : cells.get? curr with
    | none => rw [hget] at h; exact absurd h (by simp)
    | some c =>
      cases c with
      | Empty => simp only [hget] at h; exact Option.noConfusion h
      | Walk d =>
        simp only [hget] at h
        cases hadj : adjacent_index W H curr d with
        | none => simp only [hadj] at h; exact Option.noConfusion h
        | some next =>
          simp only [hadj] at h
          obtain ⟨hlen, hst⟩ := ih _ next (some d) cells2 h
          refine ⟨by simpa using hlen, fun i mc hmc => ?_⟩
          refine hst i mc ?_
          rw [List.get?_set_ne _ cells ?_]
          · exact hmc
          · rintro rfl; rw [hget] at hmc; cases hmc
      | InMaze mc0 =>
        simp only [hget] at h
        have hfin : ∀ cellsB, some cellsB = some cells2 →
            cellsB.length = cells.length →
            (∀ i mc, cells.get? i = some (.InMaze mc) → ∃ mc', cellsB.get? i = some (.InMaze mc')) →
            cells2.length = cells.length
              ∧ ∀ i mc, cells.get? i = some (.InMaze mc) →
                  ∃ mc', cells2.get? i = some (.InMaze mc') := by
          rintro cellsB hB hBlen hBpt
          obtain rfl := Option.some.inj hB
          exact ⟨hBlen, hBpt⟩
        cases last with
        | none => exact hfin cells h rfl (fun i mc hmc => ⟨mc, hmc⟩)
        | some l =>
          cases l with
          | East =>
            refine hfin _ h (by simp) (fun i mc hmc => ?_)
            by_cases hc : curr = i
            · subst hc
              exact ⟨mc0.set_west_open, List.get?_set_eq_of_lt _ (lt_of_get?_some hget)⟩
            · exact ⟨mc, by rw [List.get?_set_ne _ cells hc]; exact hmc⟩
          | South =>
            refine hfin _ h (by simp) (fun i mc hmc => ?_)
            by_cases hc : curr = i
            · subst hc
              exact ⟨mc0.set_north_open, List.get?_set_eq_of_lt _ (lt_of_get?_some hget)⟩
            · exact ⟨mc, by rw [List.get?_set_ne _ cells hc]; exact hmc⟩
          | North => exact hfin cells h rfl (fun i mc hmc => ⟨mc, hmc⟩)
          | West => exact hfin cells h rfl (fun i mc hmc => ⟨mc, hmc⟩)

/-- Overwriting a non-`InMaze` cell with a non-`InMaze` value changes no
`InMaze` cell. -/
theorem set_non_inmaze_iff (cells : List GCell) (j : Nat) (c : GCell)
    (hc : ∀ mc, c ≠ .InMaze mc) (hj : ¬ gInMaze cells j) (i : Nat) (mc : MazeCell) :
    ((cells.set j c).get? i = some (.InMaze mc) ↔ cells.get? i = some (.InMaze mc)) := by
  by_cases hji : j = i
  · subst hji
    rw [List.get?_set_eq]
    cases hg : cells.get? j with
    | none => simp
    | some c0 =>
      simp only [Option.map_eq_map, Option.map_some', Option.some.injEq]
      constructor
      · intro h; exact absurd h (hc mc)
      · intro h; exact absurd ⟨mc, by rw [hg, h]⟩ hj
  · rw [List.get?_set_ne _ cells hji]

/-- Cleanup only turns `Walk` cells into `Empty`: it keeps the length and
every `InMaze` cell, in both directions. -/
theorem cleanup_inmaze_iff (wis : List Nat) :
    ∀ cells, (cleanup cells wis).length = cells.length
      ∧ ∀ i mc, ((cleanup cells wis).get? i = some (.InMaze mc)
          ↔ cells.get? i = some (.InMaze mc)) := by
  induction wis with
  | nil => intro cells; exact ⟨rfl, fun i mc => Iff.rfl⟩
  | cons idx tl ih =>
    intro cells
    have hstep : cleanup cells (idx :: tl)
        = cleanup
            (match cells.get? idx with
              | some (.Walk _) => cells.set idx .Empty
              | _ => cells) tl := by
      rw [cleanup, List.foldl_cons]; rfl
    rw [hstep]
    cases hg : cells.get? idx with
    | none => simpa [hg] using ih cells
    | some c =>
      cases c with
      | Empty => simpa [hg] using ih cells
      | InMaze mc0 => simpa [hg] using ih cells
      | Walk d0 =>
        simp only [hg]
        obtain ⟨hlen, hiff⟩ := ih (cells.set idx .Empty)
        refine ⟨by simpa using hlen, fun i mc => ?_⟩
        rw [hiff i mc]
        exact set_non_inmaze_iff cells idx .Empty (fun mc h => by cases h)
          (by rintro ⟨mc1, h1⟩; rw [hg] at h1; cases h1) i mc

/-- If `choose_walk_start` reports pool exhaustion, every candidate it
popped was already `InMaze`. -/
theorem choose_walk_start_none_inmaze (cells : List GCell) :
    ∀ pool rest, choose_walk_start cells pool = some (none, rest) →
      ∀ i ∈ pool, gInMaze cells i := by
  intro pool
  induction pool with
  | nil => intro rest _ i hi; exact absurd hi (List.not_mem_nil i)
  | cons idx tl ih =>
    intro rest h i hi
    rw [choose_walk_start] at h
    cases hg : cells.get? idx with
    | none => rw [hg] at h; exact absurd h (by simp)
    | some c =>
      cases c with
      | InMaze mc0 =>
        rw [hg] at h
        rcases List.mem_cons.mp hi with rfl | hmem
        · exact ⟨mc0, hg⟩
        · exact ih rest h i hmem
      | Empty =>
        rw [hg] at h
        exact absurd (congrArg (fun t => t.1) (Option.some.inj h)) (by simp)
      | Walk d0 =>
        rw [hg] at h
        exact absurd (congrArg (fun t => t.1) (Option.some.inj h)) (by simp)

/-- If `choose_walk_start` returns a start, that cell is not `InMaze`, and
every pool element is the start, still in the remaining pool, or already
`InMaze`. -/
theorem choose_walk_start_some_spec (cells : List GCell) :
    ∀ pool idx rest, choose_walk_start cells pool = some (some idx, rest) →
      (∃ c, cells.get? idx = some c ∧ ∀ mc, c ≠ .InMaze mc)
        ∧ ∀ i ∈ pool, i = idx ∨ i ∈ rest ∨ gInMaze cells i := by
  intro pool
  induction pool with
  | nil => intro idx rest h; exact absurd h (by simp [choose_walk_start])
  | cons j tl ih =>
    intro idx rest h
    rw [choose_walk_start] at h
    cases hg : cells.get? j with
    | none => rw [hg] at h; exact absurd h (by simp)
    | some c =>
      cases c with
      | InMaze mc0 =>
        rw [hg] at h
        obtain ⟨hne, hall⟩ := ih idx rest h
        refine ⟨hne, fun i hi => ?_⟩
        rcases List.mem_cons.mp hi with rfl | hmem
        · exact Or.inr (Or.inr ⟨mc0, hg⟩)
        · exact hall i hmem
      | Empty =>
        rw [hg] at h
        obtain ⟨h1, h2⟩ : some j = some idx ∧ tl = rest := by
          constructor <;> [exact congrArg (fun t => t.1) (Option.some.inj h);
            exact congrArg (fun t => t.2) (Option.some.inj h)]
        obtain rfl := Option.some.inj h1
        subst h2
        exact ⟨⟨.Empty, hg, fun mc hmc => by cases hmc⟩,
          fun i hi => (List.mem_cons.mp hi).imp id Or.inl⟩
      | Walk d0 =>
        rw [hg] at h
        obtain ⟨h1, h2⟩ : some j = some idx ∧ tl = rest := by
          constructor <;> [exact congrArg (fun t => t.1) (Option.some.inj h);
            exact congrArg (fun t => t.2) (Option.some.inj h)]
        obtain rfl := Option.some.inj h1
        subst h2
        exact ⟨⟨.Walk d0, hg, fun mc hmc => by cases hmc⟩,
          fun i hi => (List.mem_cons.mp hi).imp id Or.inl⟩

/-- After a successful walk, the walk start (and every cell that was already
`Walk`) is a `Walk` cell. -/
theorem walkLoop_walk_cells (W H : Nat) (dirs : Nat → List Direction) :
    ∀ fuel k cells wis curr cells1 wis1 k1,
      walkLoop W H dirs fuel k cells wis curr = some (cells1, wis1, k1) →
      curr < cells.length →
      ∀ i, (i = curr ∨ ∃ d0, cells.get? i = some (.Walk d0)) →
        ∃ d, cells1.get? i = some (.Walk d) := by
  intro fuel
  induction fuel with
  | zero => intro k cells wis curr cells1 wis1 k1 h; exact absurd h (by simp [walkLoop])
  | succ fuel ih =>
    intro k cells wis curr cells1 wis1 k1 h hlt i hi
    rw [walkLoop] at h
    cases hch : choose_random_adjacent W H curr (dirs k) with
    | none => rw [hch] at h; exact absurd h (by simp)
    | some pr =>
      obtain ⟨d, a⟩ := pr
      simp only [hch] at h
      have hwalki : i = curr ∨ ∃ d0, (cells.set curr (.Walk d)).get? i = some (.Walk d0) := by
        rcases hi with rfl | ⟨d0, hd0⟩
        · exact Or.inr ⟨d, List.get?_set_eq_of_lt _ hlt⟩
        · by_cases hci : curr = i
          · subst hci; exact Or.inr ⟨d, List.get?_set_eq_of_lt _ hlt⟩
          · exact Or.inr ⟨d0, by rw [List.get?_set_ne _ cells hci]; exact hd0⟩
      have hwalki' : ∃ d0, (cells.set curr (.Walk d)).get? i = some (.Walk d0) := by
        rcases hwalki with rfl | hi'
        · exact ⟨d, List.get?_set_eq_of_lt _ hlt⟩
        · exact hi'
      cases hget : (cells.set curr (.Walk d)).get? a with
      | none => simp only [hget] at h; exact Option.noConfusion h
      | some c =>
        cases c with
        | InMaze mc =>
          simp only [hget] at h
          have : cells.set curr (.Walk d) = cells1 :=
            congrArg (fun t => t.1) (Option.some.inj h)
          rw [← this]
          exact hwalki'
        | Empty =>
          simp only [hget] at h
          exact ih (k + 1) _ _ a cells1 wis1 k1 h (by simpa using lt_of_get?_some hget)
            i (Or.inr hwalki')
        | Walk d0 =>
          simp only [hget] at h
          exact ih (k + 1) _ _ a cells1 wis1 k1 h (by simpa using lt_of_get?_some hget)
            i (Or.inr hwalki')

/-- The carve pass turns its start cell (a `Walk` cell) into an `InMaze`
cell. -/
theorem carveLoop_start_inmaze (W H : Nat) (fuel : Nat) (cells : List GCell)
    (curr : Nat) (last : Option Direction) (cells2 : List GCell) (d : Direction)
    (hg : cells.get? curr = some (.Walk d))
    (h : carveLoop W H fuel cells curr last = some cells2) :
    gInMaze cells2 curr := by
  cases fuel with
  | zero => exact absurd h (by simp [carveLoop])
  | succ fuel =>
    rw [carveLoop] at h
    simp only [hg] at h
    cases hadj : adjacent_index W H curr d with
    | none => simp only [hadj] at h; exact Option.noConfusion h
    | some next =>
      simp only [hadj] at h
      obtain ⟨-, hpt⟩ := carveLoop_inmaze_sticky W H fuel _ next (some d) cells2 h
      obtain ⟨mc', hmc'⟩ := hpt curr _ (List.get?_set_eq_of_lt _ (lt_of_get?_some hg))
      exact ⟨mc', hmc'⟩

/-- When every generator cell is `InMaze`, the emission loop succeeds and
copies the wall bits index by index. -/
theorem extractCells_of_all_inmaze :
    ∀ cells : List GCell, (∀ i, i < cells.length → gInMaze cells i) →
      ∃ mcs, extractCells cells = some mcs ∧ mcs.length = cells.length
        ∧ ∀ i mc, cells.get? i = some (.InMaze mc) → mcs.get? i = some mc := by
  intro cells
  induction cells with
  | nil => intro _; exact ⟨[], rfl, rfl, fun i mc h => by cases h⟩
  | cons c tl ih =>
    intro hall
    obtain ⟨mc0, hmc0⟩ := hall 0 (by simp)
    obtain rfl : c = .InMaze mc0 := by
      have : some c = some (.InMaze mc0) := hmc0
      exact Option.some.inj this
    obtain ⟨mcs, hext, hlen, hpt⟩ := ih (fun i hi => by
      obtain ⟨mc, hmc⟩ := hall (i + 1) (by simpa using Nat.succ_lt_succ hi)
      exact ⟨mc, hmc⟩)
    refine ⟨mc0 :: mcs, ?_, by simpa using hlen, fun i mc hmc => ?_⟩
    · rw [extractCells, hext]; rfl
    · cases i with
      | zero => cases Option.some.inj hmc; rfl
      | succ i => exact hpt i mc hmc

/-- Whenever the outer loop ends with the pool exhausted, provided every
non-`InMaze` cell index was in the pool, every generator cell is `InMaze`
and `extractCells` succeeds pointwise. -/
theorem outerLoop_coverage (W H : Nat) (dirs : Nat → List Direction) :
    ∀ fuel wfuel k cells pool cellsF,
      cells.length = W * H →
      (∀ i, i < W * H → ¬ gInMaze cells i → i ∈ pool) →
      outerLoop W H dirs wfuel fuel k cells pool = some cellsF →
      cellsF.length = W * H
      ∧ (∀ i, i < W * H → gInMaze cellsF i)
      ∧ ∃ mcs, extractCells cellsF = some mcs ∧ mcs.length = W * H
          ∧ ∀ i mc, cellsF.get? i = some (.InMaze mc) → mcs.get? i = some mc := by
  intro fuel
  induction fuel with
  | zero => intro wfuel k cells pool cellsF _ _ h; exact absurd h (by simp [outerLoop])
  | succ fuel ih =>
    intro wfuel k cells pool cellsF hlen hpool hout
    rw [outerLoop] at hout
    cases hcs : choose_walk_start cells pool with
    | none => rw [hcs] at hout; exact absurd hout (by simp)
    | some p =>
      obtain ⟨os, pool'⟩ := p
      cases os with
      | none =>
        simp only [hcs] at hout
        obtain rfl : cells = cellsF := Option.some.inj hout
        have hall : ∀ i, i < W * H → gInMaze cells i := by
          intro i hi
          by_cases hm : gInMaze cells i
          · exact hm
          · exact choose_walk_start_none_inmaze cells pool pool' hcs i (hpool i hi hm)
        obtain ⟨mcs, h1, h2, h3⟩ := extractCells_of_all_inmaze cells (fun i hi =>
          hall i (hlen ▸ hi))
        exact ⟨hlen, hall, mcs, h1, by rw [h2, hlen], h3⟩
      | some s =>
        simp only [hcs] at hout
        cases hw : walkLoop W H dirs wfuel k cells [] s with
        | none => rw [hw] at hout; exact absurd hout (by simp)
        | some tr =>
          obtain ⟨cells1, wis, k'⟩ := tr
          simp only [hw] at hout
          cases hc : carveLoop W H wfuel cells1 s none with
          | none => simp only [hc] at hout; exact Option.noConfusion hout
          | some cells2 =>
            simp only [hc] at hout
            obtain ⟨⟨cstart, hcstart, hcne⟩, hallpool⟩ :=
              choose_walk_start_some_spec cells pool s pool' hcs
            have hsne : ¬ gInMaze cells s := by
              rintro ⟨mc, hmc⟩
              rw [hcstart] at hmc
              exact hcne mc (Option.some.inj hmc)
            obtain ⟨hlen1, hiff1⟩ :=
              walkLoop_inmaze_iff W H dirs wfuel k cells [] s cells1 wis k' hsne hw
            obtain ⟨hlen2, hsticky⟩ := carveLoop_inmaze_sticky W H wfuel cells1 s none cells2 hc
            obtain ⟨hlen3, hiff3⟩ := cleanup_inmaze_iff wis cells2
            have hmono : ∀ i, gInMaze cells i → gInMaze (cleanup cells2 wis) i := by
              rintro i ⟨mc, hmc⟩
              obtain ⟨mc', hmc'⟩ := hsticky i mc ((hiff1 i mc).mpr hmc)
              exact ⟨mc', (hiff3 i mc').mpr hmc'⟩
            have hstartm : gInMaze (cleanup cells2 wis) s := by
              obtain ⟨dws, hdws⟩ := walkLoop_walk_cells W H dirs wfuel k cells [] s cells1 wis k'
                hw (lt_of_get?_some hcstart) s (Or.inl rfl)
              obtain ⟨mc', hmc'⟩ := carveLoop_start_inmaze W H wfuel cells1 s none cells2 dws
                hdws hc
              exact ⟨mc', (hiff3 s mc').mpr hmc'⟩
            refine ih wfuel k' (cleanup cells2 wis) pool' cellsF ?_ ?_ hout
            · rw [hlen3, hlen2, hlen1, hlen]
            · intro i hi hnm
              have hnmc : ¬ gInMaze cells i := fun hm => hnm (hmono i hm)
              rcases hallpool i (hpool i hi hnmc) with rfl | hmem | hm
              · exact absurd hstartm hnm
              · exact hmem
              · exact absurd hm hnmc

/-- C4.  Whenever the outer loop of `generate` ends (the candidate pool is
exhausted), provided every non-`InMaze` cell index was in the pool (true
of the states `generate` builds, since the pool starts as a permutation of
all indices), every generator cell is `InMaze` — no `Empty` and no `Walk`
cell remains — so the emission loop's fatal `unreachable!` branch is never
taken: `extractCells` succeeds and the output maze's cell at each index
equals that generator cell's `InMaze` wall bits. -/
theorem C4_coverage (W H : Nat) (dirs : Nat → List Direction) :
    ∀ fuel wfuel k cells pool cellsF,
      cells.length = W * H →
      (∀ i, i < W * H → ¬ gInMaze cells i → i ∈ pool) →
      outerLoop W H dirs wfuel fuel k cells pool = some cellsF →
      cellsF.length = W * H
      ∧ (∀ i, i < W * H → gInMaze cellsF i)
      ∧ ∃ mcs, extractCells cellsF = some mcs ∧ mcs.length = W * H
          ∧ ∀ i mc, cellsF.get? i = some (.InMaze mc) → mcs.get? i = some mc :=
  outerLoop_coverage W H dirs

/-- Witness for C4: the `1 × 2` grid seeded at cell 1, remaining pool `[0]`;
the outer loop ends with both cells `InMaze` and emission succeeds. -/
theorem C4_coverage_witness :
    ([GCell.InMaze ⟨0⟩, GCell.InMaze ⟨2⟩] : List GCell).length = 1 * 2
    ∧ (∀ i, i < 1 * 2 → gInMaze [GCell.InMaze ⟨0⟩, GCell.InMaze ⟨2⟩] i)
    ∧ ∃ mcs, extractCells [GCell.InMaze ⟨0⟩, GCell.InMaze ⟨2⟩] = some mcs
        ∧ mcs.length = 1 * 2
        ∧ ∀ i mc, ([GCell.InMaze ⟨0⟩, GCell.InMaze ⟨2⟩] : List GCell).get? i
            = some (.InMaze mc) → mcs.get? i = some mc :=
  C4_coverage 1 2 (fun _ => [.North, .South, .East, .West]) 5 5 0
    [GCell.Empty, GCell.InMaze ⟨0⟩] [0] [GCell.InMaze ⟨0⟩, GCell.InMaze ⟨2⟩]
    (by decide)
    (by
      intro i hi hn
      interval_cases i
      · simp
      · exact absurd ⟨⟨0⟩, rfl⟩ hn)
    (by decide)

/-! ### C1 — the spanning-tree property

The development below follows the run of `generate`: the walk phase leaves a
direction chain from the walk start to an `InMaze` cell; the carving phase
replays that chain; an invariant (`Inv`) carried around the outer loop
states that the `InMaze` subgraph is connected, that wall bits stay inside
the grid and point at `InMaze` neighbours, and that a rank function
certifies acyclicity (every non-root cell has at most one open-wall
neighbour of smaller rank).  At emission time every cell is `InMaze`, and
the invariant makes the maze's open-wall graph a tree. -/

/-! #### Arithmetic facts about `adjacent_index` -/

theorem adjacent_index_ne (W H i j : Nat) (hW : 1 ≤ W) (d : Direction)
    (h : adjacent_index W H i d = some j) : j ≠ i := by
  cases d with
  | North =>
    rw [adjacent_index] at h
    split at h
    · exact Option.noConfusion h
    · obtain rfl := Option.some.inj h
      rename_i hg
      omega
  | South =>
    rw [adjacent_index] at h
    split at h
    · exact Option.noConfusion h
    · obtain rfl := Option.some.inj h; omega
  | East =>
    rw [adjacent_index] at h
    split at h
    · exact Option.noConfusion h
    · obtain rfl := Option.some.inj h; omega
  | West =>
    rw [adjacent_index] at h
    split at h
    · exact Option.noConfusion h
    · obtain rfl := Option.some.inj h
      rename_i hg
      have h0 : i ≠ 0 := fun he => hg (by simp [he])
      omega

theorem adjacent_west_inv (W H i j : Nat)
    (h : adjacent_index W H i .West = some j) :
    i % W ≠ 0 ∧ j = i - 1 ∧ j + 1 = i := by
  rw [adjacent_index] at h
  split at h
  · exact Option.noConfusion h
  · obtain rfl := Option.some.inj h
    rename_i hg
    refine ⟨hg, rfl, ?_⟩
    have : i ≠ 0 := fun h0 => hg (by simp [h0])
    omega

theorem adjacent_east_inv (W H i j : Nat) (hW : 1 ≤ W)
    (h : adjacent_index W H i .East = some j) :
    i % W ≠ W - 1 ∧ j = i + 1 ∧ j % W = i % W + 1 ∧ j % W ≠ 0 := by
  rw [adjacent_index] at h
  split at h
  · exact Option.noConfusion h
  · obtain rfl := Option.some.inj h
    rename_i hg
    have hW2 : 2 ≤ W := by
      rcases Nat.lt_or_ge W 2 with h2 | h2
      · interval_cases W
        exact absurd (by omega : i % 1 = 1 - 1) hg
      · exact h2
    have hmlt : i % W < W := Nat.mod_lt _ (by omega)
    have hm1 : i % W + 1 < W := by omega
    have hmod : (i + 1) % W = i % W + 1 := by
      rw [Nat.add_mod, Nat.mod_eq_of_lt (show 1 < W by omega),
        Nat.mod_eq_of_lt hm1]
    exact ⟨hg, rfl, hmod, by omega⟩

theorem adjacent_north_inv (W H i j : Nat)
    (h : adjacent_index W H i .North = some j) :
    W ≤ i ∧ j = i - W ∧ j + W = i := by
  rw [adjacent_index] at h
  split at h
  · exact Option.noConfusion h
  · obtain rfl := Option.some.inj h
    rename_i hg
    exact ⟨by omega, rfl, by omega⟩

theorem adjacent_south_inv (W H i j : Nat)
    (h : adjacent_index W H i .South = some j) :
    i < W * (H - 1) ∧ j = i + W ∧ W ≤ j ∧ j - W = i := by
  rw [adjacent_index] at h
  split at h
  · exact Option.noConfusion h
  · obtain rfl := Option.some.inj h
    rename_i hg
    exact ⟨by omega, rfl, by omega, by omega⟩

theorem adjacent_index_lt (W H i j : Nat) (hW : 1 ≤ W) (d : Direction)
    (hi : i < W * H) (h : adjacent_index W H i d = some j) : j < W * H := by
  cases d
  · obtain ⟨-, rfl, -⟩ := adjacent_north_inv W H i j h; omega
  · obtain ⟨hlt, rfl, -, -⟩ := adjacent_south_inv W H i j h
    have : W * (H - 1) + W ≤ W * H := by
      cases H with
      | zero => omega
      | succ h0 => simp [Nat.mul_succ]
    omega
  · obtain ⟨hg, rfl, -, -⟩ := adjacent_east_inv W H i j hW h
    rcases Nat.lt_or_ge (i + 1) (W * H) with hlt | hge
    · exact hlt
    · exfalso
      have hieq : i = W * H - 1 := by omega
      have hH : 1 ≤ H := by
        rcases Nat.eq_zero_or_pos H with rfl | h1
        · omega
        · exact h1
      have hsplit : W * H = W + (H - 1) * W := by
        cases H with
        | zero => omega
        | succ h0 => simp only [Nat.succ_sub_one]; ring
      have : i = W - 1 + (H - 1) * W := by omega
      rw [this, Nat.add_mul_mod_self_right, Nat.mod_eq_of_lt (by omega)] at hg
      exact hg rfl
  · obtain ⟨-, rfl, -⟩ := adjacent_west_inv W H i j h; omega

/-! #### Direction chains -/

/-- A direction chain: `DChain W H cells c t L` says that the list `L` of
(cell, direction) pairs starts at `c`, each listed cell is a `Walk` cell
whose stored direction points at the next listed cell, and the last stored
direction points at `t` (for `L = []`, `c = t`). -/
inductive DChain (W H : Nat) (cells : List GCell) : Nat → Nat → List (Nat × Direction) → Prop
  | nil : ∀ t, DChain W H cells t t []
  | cons : ∀ c d next t rest, cells.get? c = some (.Walk d) →
      adjacent_index W H c d = some next →
      DChain W H cells next t rest → DChain W H cells c t ((c, d) :: rest)

theorem dchain_nil_inv {W H cells c t} (h : DChain W H cells c t []) : c = t := by
  cases h; rfl

theorem dchain_cons_inv {W H cells c t x d L}
    (h : DChain W H cells c t ((x, d) :: L)) :
    x = c ∧ cells.get? c = some (.Walk d)
      ∧ ∃ next, adjacent_index W H c d = some next ∧ DChain W H cells next t L := by
  cases h with
  | cons _ _ next _ _ hg hadj hrest => exact ⟨rfl, hg, next, hadj, hrest⟩

theorem dchain_cells_walk {W H cells c t L} (h : DChain W H cells c t L) :
    ∀ x ∈ L.map Prod.fst, ∃ d, cells.get? x = some (.Walk d) := by
  induction h with
  | nil => intro x hx; exact absurd hx (List.not_mem_nil x)
  | cons c d next t rest hg hadj hrest ih =>
    intro x hx
    rcases List.mem_cons.mp hx with rfl | hx'
    · exact ⟨d, hg⟩
    · exact ih x hx'

theorem dchain_snoc {W H cells c curr L} (h : DChain W H cells c curr L)
    (d : Direction) (a : Nat) (hg : cells.get? curr = some (.Walk d))
    (hadj : adjacent_index W H curr d = some a) :
    DChain W H cells c a (L ++ [(curr, d)]) := by
  induction h with
  | nil t => exact .cons t d a a [] hg hadj (.nil a)
  | cons c0 d0 next t rest hg0 hadj0 hrest ih =>
    exact .cons c0 d0 next a (rest ++ [(t, d)]) hg0 hadj0 (ih hg hadj)

theorem dchain_set_other {W H cells c t L} (h : DChain W H cells c t L)
    (j : Nat) (v : GCell) (hj : j ∉ L.map Prod.fst) :
    DChain W H (cells.set j v) c t L := by
  induction h with
  | nil t => exact .nil t
  | cons c0 d0 next t rest hg0 hadj0 hrest ih =>
    have hmap : (((c0, d0) :: rest).map Prod.fst) = c0 :: rest.map Prod.fst := rfl
    rw [hmap] at hj
    have hjc : j ≠ c0 := fun hh => hj (hh ▸ List.mem_cons_self c0 _)
    exact .cons c0 d0 next t rest
      (by rw [List.get?_set_ne _ cells hjc]; exact hg0) hadj0
      (ih (fun hm => hj (List.mem_cons.mpr (Or.inr hm))))

theorem dchain_split {W H : Nat} {cells : List GCell} :
    ∀ (L1 : List (Nat × Direction)) (c t a : Nat) (da : Direction) L2,
      DChain W H cells c t (L1 ++ (a, da) :: L2) → DChain W H cells c a L1 := by
  intro L1
  induction L1 with
  | nil =>
    intro c t a da L2 h
    obtain ⟨rfl, -, -⟩ := dchain_cons_inv h
    exact DChain.nil _
  | cons p tl ih =>
    intro c t a da L2 h
    obtain ⟨x, d⟩ := p
    rw [List.cons_append] at h
    obtain ⟨rfl, hg, next, hadj, hrest⟩ := dchain_cons_inv h
    exact DChain.cons _ d next a tl hg hadj (ih next t a da L2 hrest)

/-- The adjacency target stored in a chain stays inside the chain (or is the
final target `t`). -/
theorem dchain_succ_mem {W H cells c t L} (h : DChain W H cells c t L)
    (hnodup : (L.map Prod.fst).Nodup) :
    ∀ u d v, (u, d) ∈ L → adjacent_index W H u d = some v →
      v ∈ L.map Prod.fst ∨ v = t := by
  induction h with
  | nil t => intro u d v hm; exact absurd hm (List.not_mem_nil _)
  | cons c0 d0 next t rest hg0 hadj0 hrest ih =>
    intro u d v hm hadj
    rcases List.mem_cons.mp hm with heq | hm'
    · obtain ⟨rfl, rfl⟩ : u = c0 ∧ d = d0 := by
        constructor <;> [exact congrArg Prod.fst heq; exact congrArg Prod.snd heq]
      rw [hadj0] at hadj
      obtain rfl := Option.some.inj hadj
      cases hrest with
      | nil => exact Or.inr rfl
      | cons c1 d1 next1 _ rest1 hg1 hadj1 hrest1 => exact Or.inl (by simp)
    · have hnodup' : (rest.map Prod.fst).Nodup := (List.nodup_cons.mp hnodup).2
      rcases ih hnodup' u d v hm' hadj with hmem | rfl
      · exact Or.inl (by simp [hmem])
      · exact Or.inr rfl

/-- In a chain with distinct cells, the stored direction of a cell is
unique. -/
theorem dchain_fst_unique {L : List (Nat × Direction)}
    (hnodup : (L.map Prod.fst).Nodup) :
    ∀ u d1 d2, (u, d1) ∈ L → (u, d2) ∈ L → d1 = d2 := by
  induction L with
  | nil => intro u d1 d2 hm; exact absurd hm (List.not_mem_nil _)
  | cons p tl ih =>
    intro u d1 d2 h1 h2
    obtain ⟨x, dx⟩ := p
    have hnodup' : (x :: tl.map Prod.fst).Nodup := hnodup
    obtain ⟨hx, hnd⟩ := List.nodup_cons.mp hnodup'
    rcases List.mem_cons.mp h1 with he1 | hm1 <;> rcases List.mem_cons.mp h2 with he2 | hm2
    · cases he1; cases he2; rfl
    · cases he1
      exact absurd (by simpa using List.mem_map_of_mem Prod.fst hm2) hx
    · cases he2
      exact absurd (by simpa using List.mem_map_of_mem Prod.fst hm1) hx
    · exact ih hnd u d1 d2 hm1 hm2

/-! #### The walk phase leaves a direction chain

The loop-erasure argument: at every moment of the walk, following the
stored directions from the walk start traces a simple path to the current
cell (revisiting a cell overwrites its direction, which truncates the
traced path); when the walk stops, the path ends in a stored direction
pointing at an `InMaze` cell. -/

theorem walkLoop_chain (W H : Nat) (hW : 1 ≤ W) (dirs : Nat → List Direction) :
    ∀ fuel k cells wis curr start L cells1 wis1 k1,
      walkLoop W H dirs fuel k cells wis curr = some (cells1, wis1, k1) →
      DChain W H cells start curr L →
      (L.map Prod.fst ++ [curr]).Nodup →
      ¬ gInMaze cells curr →
      curr < cells.length →
      ∃ L' t mc, DChain W H cells1 start t L' ∧ (L'.map Prod.fst).Nodup
        ∧ t ∉ L'.map Prod.fst ∧ cells1.get? t = some (.InMaze mc) ∧ L' ≠ [] := by
  intro fuel
  induction fuel with
  | zero => intro k cells wis curr start L cells1 wis1 k1 h; exact absurd h (by simp [walkLoop])
  | succ fuel ih =>
    intro k cells wis curr start L cells1 wis1 k1 h hchain hnodup hcur hlt
    rw [walkLoop] at h
    cases hch : choose_random_adjacent W H curr (dirs k) with
    | none => rw [hch] at h; exact absurd h (by simp)
    | some pr =>
      obtain ⟨d, a⟩ := pr
      have hadj : adjacent_index W H curr d = some a :=
        choose_random_adjacent_sound W H curr (dirs k) d a hch
      simp only [hch] at h
      have hnotin : curr ∉ L.map Prod.fst := by
        rw [List.nodup_append] at hnodup
        exact fun hm => hnodup.2.2 hm (List.mem_singleton_self curr)
      have hchain0 : DChain W H (cells.set curr (.Walk d)) start curr L :=
        dchain_set_other hchain curr (.Walk d) hnotin
      have hcurval : (cells.set curr (.Walk d)).get? curr = some (.Walk d) :=
        List.get?_set_eq_of_lt _ hlt
      have hchain' : DChain W H (cells.set curr (.Walk d)) start a (L ++ [(curr, d)]) :=
        dchain_snoc hchain0 d a hcurval hadj
      have hfst' : (L ++ [(curr, d)]).map Prod.fst = L.map Prod.fst ++ [curr] := by
        simp
      have hrec : ∀ cnext, (cells.set curr (.Walk d)).get? a = some cnext →
          (∀ mc, cnext ≠ .InMaze mc) →
          walkLoop W H dirs fuel (k + 1) (cells.set curr (.Walk d)) (wis ++ [curr]) a
            = some (cells1, wis1, k1) →
          ∃ L' t mc, DChain W H cells1 start t L' ∧ (L'.map Prod.fst).Nodup
            ∧ t ∉ L'.map Prod.fst ∧ cells1.get? t = some (.InMaze mc) ∧ L' ≠ [] := by
        intro cnext hget hne hwrec
        have hane : a ≠ curr := adjacent_index_ne W H curr a hW d hadj
        have hnim : ¬ gInMaze (cells.set curr (.Walk d)) a := by
          rintro ⟨mc, hmc⟩
          rw [hget] at hmc
          exact hne mc (Option.some.inj hmc)
        have halt : a < (cells.set curr (.Walk d)).length := lt_of_get?_some hget
        by_cases hmem : a ∈ L.map Prod.fst
        · obtain ⟨p, hp, hpf⟩ := List.mem_map.mp hmem
          have hp' : (a, p.2) ∈ L := by
            have hpe : p = (a, p.2) := by
              rw [← hpf]
            rwa [hpe] at hp
          obtain ⟨L1, L2, hLeq⟩ := List.append_of_mem hp'
          rw [hLeq] at hchain0 hnodup
          have hsplit : DChain W H (cells.set curr (.Walk d)) start a L1 :=
            dchain_split L1 start curr a p.2 L2 hchain0
          have hfsteq : (L1 ++ (a, p.2) :: L2).map Prod.fst
              = L1.map Prod.fst ++ a :: L2.map Prod.fst := by simp
          rw [hfsteq, List.nodup_append] at hnodup
          obtain ⟨hnA, -, -⟩ := hnodup
          rw [List.nodup_append] at hnA
          obtain ⟨hn1, hn2, hd12⟩ := hnA
          have hnodup1 : (L1.map Prod.fst ++ [a]).Nodup := by
            rw [List.nodup_append]
            refine ⟨hn1, by simp, ?_⟩
            intro x hx hxa
            rw [List.mem_singleton] at hxa
            subst hxa
            exact hd12 hx (by simp)
          exact ih (k + 1) _ _ a start L1 cells1 wis1 k1 hwrec hsplit hnodup1 hnim halt
        · have hnodup' : ((L ++ [(curr, d)]).map Prod.fst ++ [a]).Nodup := by
            rw [hfst', List.nodup_append]
            refine ⟨hnodup, by simp, ?_⟩
            intro x hx hx2
            rw [List.mem_singleton] at hx2
            subst hx2
            rcases List.mem_append.mp hx with hx3 | hx3
            · exact hmem hx3
            · rw [List.mem_singleton] at hx3
              exact hane hx3
          exact ih (k + 1) _ _ a start (L ++ [(curr, d)]) cells1 wis1 k1 hwrec hchain'
            hnodup' hnim halt
      cases hget : (cells.set curr (.Walk d)).get? a with
      | none => simp only [hget] at h; exact Option.noConfusion h
      | some c =>
        cases c with
        | InMaze mc =>
          simp only [hget] at h
          obtain rfl : cells.set curr (.Walk d) = cells1 :=
            congrArg (fun t => t.1) (Option.some.inj h)
          refine ⟨L ++ [(curr, d)], a, mc, hchain', by rw [hfst']; exact hnodup, ?_, hget,
            by simp⟩
          intro hmem
          obtain ⟨dw, hdw⟩ := dchain_cells_walk hchain' a hmem
          rw [hget] at hdw
          exact GCell.noConfusion (Option.some.inj hdw)
        | Empty =>
          simp only [hget] at h
          exact hrec .Empty hget (fun mc hmc => by cases hmc) h
        | Walk dw =>
          simp only [hget] at h
          exact hrec (.Walk dw) hget (fun mc hmc => by cases hmc) h

/-! #### The open-wall graph of the generator state -/

/-- Cell `i` is `InMaze` with its north wall open. -/
def gBitN (cells : List GCell) (i : Nat) : Prop :=
  ∃ mc, cells.get? i = some (.InMaze mc) ∧ mc.north_open = true

/-- Cell `i` is `InMaze` with its west wall open. -/
def gBitW (cells : List GCell) (i : Nat) : Prop :=
  ∃ mc, cells.get? i = some (.InMaze mc) ∧ mc.west_open = true

/-- An open-wall edge owned by cell `i`: an open north wall joins `i` to
`i - W`, an open west wall joins `i` to `i - 1` (cells own their north and
west walls). -/
def gEdge (W : Nat) (cells : List GCell) (i j : Nat) : Prop :=
  (gBitN cells i ∧ W ≤ i ∧ j = i - W) ∨ (gBitW cells i ∧ i % W ≠ 0 ∧ j = i - 1)

/-- Two cells are adjacent when either owns an open wall between them. -/
def gAdj (W : Nat) (cells : List GCell) (i j : Nat) : Prop :=
  gEdge W cells i j ∨ gEdge W cells j i

/-- Reachability along open walls. -/
def gReach (W : Nat) (cells : List GCell) : Nat → Nat → Prop :=
  Relation.ReflTransGen (gAdj W cells)

theorem gAdj_symm {W : Nat} {cells : List GCell} {i j : Nat}
    (h : gAdj W cells i j) : gAdj W cells j i := h.symm

theorem gReach_symm {W : Nat} {cells : List GCell} {i j : Nat}
    (h : gReach W cells i j) : gReach W cells j i := by
  induction h with
  | refl => exact .refl
  | tail hab hbc ih => exact Relation.ReflTransGen.head (gAdj_symm hbc) ih

theorem gEdge_inmaze_left {W : Nat} {cells : List GCell} {i j : Nat}
    (h : gEdge W cells i j) : gInMaze cells i := by
  rcases h with ⟨⟨mc, hmc, -⟩, -, -⟩ | ⟨⟨mc, hmc, -⟩, -, -⟩ <;> exact ⟨mc, hmc⟩

theorem gEdge_lt {W : Nat} {cells : List GCell} {i j : Nat} (hW : 1 ≤ W)
    (h : gEdge W cells i j) : i < cells.length ∧ j < i := by
  rcases h with ⟨⟨mc, hmc, -⟩, hle, rfl⟩ | ⟨⟨mc, hmc, -⟩, hne, rfl⟩
  · exact ⟨lt_of_get?_some hmc, by omega⟩
  · have h0 : i ≠ 0 := fun he => hne (by simp [he])
    exact ⟨lt_of_get?_some hmc, by omega⟩

/-- The invariant of the outer generation loop: the `InMaze` subgraph of
open walls stays inside the grid, points only at `InMaze` neighbours, is
connected, and carries a rank certificate (an injective rank, a minimal
root, and at most one smaller-ranked open-wall neighbour per non-root
cell) which will make the final graph acyclic. -/
structure Inv (W H : Nat) (cells : List GCell) : Prop where
  len : cells.length = W * H
  consistN : ∀ i, gBitN cells i → W ≤ i ∧ gInMaze cells (i - W)
  consistW : ∀ i, gBitW cells i → i % W ≠ 0 ∧ gInMaze cells (i - 1)
  conn : ∀ i j, gInMaze cells i → gInMaze cells j → gReach W cells i j
  rank : ∃ (ord : Nat → Nat) (r : Nat), gInMaze cells r
    ∧ (∀ i, gInMaze cells i → ord r ≤ ord i)
    ∧ (∀ i j, gInMaze cells i → gInMaze cells j → ord i = ord j → i = j)
    ∧ (∀ v, gInMaze cells v → v ≠ r →
        ∀ u1 u2, gAdj W cells u1 v → gAdj W cells u2 v →
          ord u1 < ord v → ord u2 < ord v → u1 = u2)

/-! #### Congruence: states agreeing on `InMaze` cells share the invariant -/

theorem gInMaze_congr {cells cells' : List GCell}
    (hiff : ∀ i mc, cells'.get? i = some (.InMaze mc) ↔ cells.get? i = some (.InMaze mc))
    (i : Nat) : gInMaze cells' i ↔ gInMaze cells i := by
  constructor <;> rintro ⟨mc, hmc⟩ <;> exact ⟨mc, by rw [hiff i mc] at *; exact hmc⟩

theorem gEdge_congr {W : Nat} {cells cells' : List GCell}
    (hiff : ∀ i mc, cells'.get? i = some (.InMaze mc) ↔ cells.get? i = some (.InMaze mc))
    (i j : Nat) : gEdge W cells' i j ↔ gEdge W cells i j := by
  unfold gEdge gBitN gBitW
  constructor <;>
    · rintro (⟨⟨mc, hmc, hb⟩, h1, h2⟩ | ⟨⟨mc, hmc, hb⟩, h1, h2⟩)
      · exact Or.inl ⟨⟨mc, by rw [hiff i mc] at *; exact hmc, hb⟩, h1, h2⟩
      · exact Or.inr ⟨⟨mc, by rw [hiff i mc] at *; exact hmc, hb⟩, h1, h2⟩

theorem gAdj_congr {W : Nat} {cells cells' : List GCell}
    (hiff : ∀ i mc, cells'.get? i = some (.InMaze mc) ↔ cells.get? i = some (.InMaze mc))
    (i j : Nat) : gAdj W cells' i j ↔ gAdj W cells i j := by
  unfold gAdj
  rw [gEdge_congr hiff i j, gEdge_congr hiff j i]

theorem gReach_congr {W : Nat} {cells cells' : List GCell}
    (hiff : ∀ i mc, cells'.get? i = some (.InMaze mc) ↔ cells.get? i = some (.InMaze mc))
    (i j : Nat) : gReach W cells' i j → gReach W cells i j := by
  intro h
  induction h with
  | refl => exact .refl
  | tail hab hbc ih => exact ih.tail ((gAdj_congr hiff _ _).mp hbc)

theorem Inv_congr {W H : Nat} {cells cells' : List GCell}
    (hlen : cells'.length = cells.length)
    (hiff : ∀ i mc, cells'.get? i = some (.InMaze mc) ↔ cells.get? i = some (.InMaze mc))
    (hinv : Inv W H cells) : Inv W H cells' where
  len := by rw [hlen, hinv.len]
  consistN := by
    intro i hb
    obtain ⟨mc, hmc, hn⟩ := hb
    obtain ⟨h1, h2⟩ := hinv.consistN i ⟨mc, (hiff i mc).mp hmc, hn⟩
    exact ⟨h1, (gInMaze_congr hiff _).mpr h2⟩
  consistW := by
    intro i hb
    obtain ⟨mc, hmc, hn⟩ := hb
    obtain ⟨h1, h2⟩ := hinv.consistW i ⟨mc, (hiff i mc).mp hmc, hn⟩
    exact ⟨h1, (gInMaze_congr hiff _).mpr h2⟩
  conn := by
    intro i j hi hj
    have h := hinv.conn i j ((gInMaze_congr hiff i).mp hi) ((gInMaze_congr hiff j).mp hj)
    have hiff' : ∀ i mc, cells.get? i = some (.InMaze mc)
        ↔ cells'.get? i = some (.InMaze mc) := fun i mc => (hiff i mc).symm
    exact gReach_congr hiff' i j h
  rank := by
    obtain ⟨ord, r, hr, hmin, hinj, hone⟩ := hinv.rank
    refine ⟨ord, r, (gInMaze_congr hiff r).mpr hr, ?_, ?_, ?_⟩
    · intro i hi; exact hmin i ((gInMaze_congr hiff i).mp hi)
    · intro i j hi hj
      exact hinj i j ((gInMaze_congr hiff i).mp hi) ((gInMaze_congr hiff j).mp hj)
    · intro v hv hvr u1 u2 h1 h2
      exact hone v ((gInMaze_congr hiff v).mp hv) hvr u1 u2
        ((gAdj_congr hiff u1 v).mp h1) ((gAdj_congr hiff u2 v).mp h2)

/-! #### The invariant holds after seeding -/

theorem replicate_get? {α : Type} (x : α) :
    ∀ n i, (List.replicate n x).get? i = if i < n then some x else none := by
  intro n
  induction n with
  | zero => intro i; simp
  | succ n ihn =>
    intro i
    cases i with
    | zero => simp [List.replicate_succ]
    | succ i =>
      rw [List.replicate_succ]
      show (List.replicate n x).get? i = _
      rw [ihn i]
      by_cases hi : i < n
      · rw [if_pos hi, if_pos (by omega)]
      · rw [if_neg hi, if_neg (by omega)]

theorem Inv_initial (W H : Nat) (initial : Nat) (hlt : initial < W * H) :
    Inv W H ((List.replicate (W * H) GCell.Empty).set initial
      (.InMaze (MazeCell.new false false))) := by
  set cells1 := (List.replicate (W * H) GCell.Empty).set initial
    (.InMaze (MazeCell.new false false)) with hc1
  have hget : ∀ i mc, cells1.get? i = some (.InMaze mc)
      → i = initial ∧ mc = MazeCell.new false false := by
    intro i mc hmc
    by_cases hii : initial = i
    · subst hii
      rw [hc1, List.get?_set_eq_of_lt _ (by simpa using hlt)] at hmc
      obtain rfl : MazeCell.new false false = mc := by
        injection Option.some.inj hmc
      exact ⟨rfl, rfl⟩
    · rw [hc1, List.get?_set_ne _ _ hii, replicate_get? _ _ i] at hmc
      split at hmc
      · exact absurd (Option.some.inj hmc) (by simp)
      · exact Option.noConfusion hmc
  have hgetinit : cells1.get? initial = some (.InMaze (MazeCell.new false false)) := by
    rw [hc1]
    exact List.get?_set_eq_of_lt _ (by simpa using hlt)
  refine ⟨by simp [hc1], ?_, ?_, ?_, ?_⟩
  · rintro i ⟨mc, hmc, hn⟩
    obtain ⟨rfl, rfl⟩ := hget i mc hmc
    rw [MazeCell.north_open_new] at hn
    exact absurd hn (by simp)
  · rintro i ⟨mc, hmc, hn⟩
    obtain ⟨rfl, rfl⟩ := hget i mc hmc
    rw [MazeCell.west_open_new] at hn
    exact absurd hn (by simp)
  · rintro i j ⟨mci, hmci⟩ ⟨mcj, hmcj⟩
    obtain ⟨rfl, -⟩ := hget i mci hmci
    obtain ⟨rfl, -⟩ := hget j mcj hmcj
    exact .refl
  · refine ⟨fun _ => 0, initial, ⟨MazeCell.new false false, hgetinit⟩, ?_, ?_, ?_⟩
    · intro i _; exact Nat.le_refl 0
    · rintro i j ⟨mci, hmci⟩ ⟨mcj, hmcj⟩ -
      obtain ⟨rfl, -⟩ := hget i mci hmci
      obtain ⟨rfl, -⟩ := hget j mcj hmcj
      rfl
    · rintro v ⟨mcv, hmcv⟩ hvr
      obtain ⟨rfl, -⟩ := hget v mcv hmcv
      exact absurd rfl hvr

/-! #### The carving phase as a function of the chain -/

/-- The wall bits installed when carving a `Walk d` cell entered with
previous direction `last` (src/wilsons.rs lines 114-117). -/
def carveBits (d : Direction) (last : Option Direction) : MazeCell :=
  MazeCell.new (d == .West || last == some .East) (d == .North || last == some .South)

/-- The final-cell update of a carving pass: on reaching `InMaze` cell `t`,
open its wall on the entered side (East ⇒ west wall, South ⇒ north wall),
otherwise leave the array unchanged. -/
def tUpdate (cells : List GCell) (t : Nat) : Option Direction → List GCell
  | some .East =>
    match cells.get? t with
    | some (.InMaze mc) => cells.set t (.InMaze mc.set_west_open)
    | some (.Walk _) => cells
    | some .Empty => cells
    | none => cells
  | some .South =>
    match cells.get? t with
    | some (.InMaze mc) => cells.set t (.InMaze mc.set_north_open)
    | some (.Walk _) => cells
    | some .Empty => cells
    | none => cells
  | some .North => cells
  | some .West => cells
  | none => cells

theorem tUpdate_length (cells : List GCell) (t : Nat) (last : Option Direction) :
    (tUpdate cells t last).length = cells.length := by
  cases last with
  | none => rfl
  | some l =>
    cases l with
    | North => rfl
    | West => rfl
    | East =>
      rw [tUpdate]
      cases hg : cells.get? t with
      | none => rfl
      | some c => cases c <;> simp
    | South =>
      rw [tUpdate]
      cases hg : cells.get? t with
      | none => rfl
      | some c => cases c <;> simp

theorem tUpdate_get?_ne (cells : List GCell) (t : Nat) (last : Option Direction)
    (i : Nat) (hit : i ≠ t) : (tUpdate cells t last).get? i = cells.get? i := by
  cases last with
  | none => rfl
  | some l =>
    cases l with
    | North => rfl
    | West => rfl
    | East =>
      rw [tUpdate]
      cases hg : cells.get? t with
      | none => rfl
      | some c =>
        cases c <;> first
          | rfl
          | exact List.get?_set_ne _ cells (fun he => hit he.symm)
    | South =>
      rw [tUpdate]
      cases hg : cells.get? t with
      | none => rfl
      | some c =>
        cases c <;> first
          | rfl
          | exact List.get?_set_ne _ cells (fun he => hit he.symm)

/-- The cell array produced by a full carving pass along a chain: each chain
cell in turn is overwritten with its carve bits, and finally the reached
`InMaze` cell `t` has the wall on the entered side opened. -/
def carvedList (cells : List GCell) (t : Nat) :
    Option Direction → List (Nat × Direction) → List GCell
  | last, [] => tUpdate cells t last
  | last, (c, d) :: rest =>
    carvedList (cells.set c (.InMaze (carveBits d last))) t (some d) rest

/-- A successful carving pass computes exactly `carvedList`. -/
theorem carve_eq (W H : Nat) :
    ∀ (L : List (Nat × Direction)) (cells : List GCell) (curr t : Nat) (mc : MazeCell)
      (last : Option Direction) (fuel : Nat) (cells2 : List GCell),
      DChain W H cells curr t L →
      (L.map Prod.fst).Nodup →
      t ∉ L.map Prod.fst →
      cells.get? t = some (.InMaze mc) →
      carveLoop W H fuel cells curr last = some cells2 →
      cells2 = carvedList cells t last L := by
  intro L
  induction L with
  | nil =>
    intro cells curr t mc last fuel cells2 hchain hnodup htn htc hcarve
    obtain rfl := dchain_nil_inv hchain
    cases fuel with
    | zero => exact absurd hcarve (by simp [carveLoop])
    | succ fuel =>
      rw [carveLoop] at hcarve
      simp only [htc] at hcarve
      rw [carvedList]
      cases last with
      | none => exact (Option.some.inj hcarve).symm
      | some l =>
        cases l with
        | East =>
          rw [tUpdate]
          simp only [htc]
          exact (Option.some.inj hcarve).symm
        | South =>
          rw [tUpdate]
          simp only [htc]
          exact (Option.some.inj hcarve).symm
        | North => exact (Option.some.inj hcarve).symm
        | West => exact (Option.some.inj hcarve).symm
  | cons p rest ihp =>
    intro cells curr t mc last fuel cells2 hchain hnodup htn htc hcarve
    obtain ⟨c, d⟩ := p
    obtain ⟨rfl, hg, next, hadj, hrest⟩ := dchain_cons_inv hchain
    cases fuel with
    | zero => exact absurd hcarve (by simp [carveLoop])
    | succ fuel =>
      rw [carveLoop] at hcarve
      simp only [hg, hadj] at hcarve
      rw [carvedList]
      have hnodup2 : (c :: rest.map Prod.fst).Nodup := hnodup
      have hcnotin : c ∉ rest.map Prod.fst := (List.nodup_cons.mp hnodup2).1
      have hnodup3 : (rest.map Prod.fst).Nodup := (List.nodup_cons.mp hnodup2).2
      have htn3 : t ∉ rest.map Prod.fst := fun hm => htn (List.mem_cons.mpr (Or.inr hm))
      have hct : c ≠ t := fun he => htn (by rw [← he]; exact List.mem_cons_self _ _)
      exact ihp (cells.set c (.InMaze (carveBits d last))) next t mc (some d) fuel cells2
        (dchain_set_other hrest c _ hcnotin) hnodup3 htn3
        (by rw [List.get?_set_ne _ cells hct]; exact htc) hcarve

theorem carvedList_length (t : Nat) :
    ∀ (L : List (Nat × Direction)) (cells : List GCell) (last : Option Direction),
      (carvedList cells t last L).length = cells.length := by
  intro L
  induction L with
  | nil => intro cells last; rw [carvedList]; exact tUpdate_length cells t last
  | cons p rest ihp =>
    intro cells last
    obtain ⟨c, d⟩ := p
    rw [carvedList, ihp]
    simp

/-- Cells outside the chain and different from `t` are untouched by the
carve. -/
theorem carvedList_get?_untouched (t : Nat) :
    ∀ (L : List (Nat × Direction)) (cells : List GCell) (last : Option Direction) (i : Nat),
      i ∉ L.map Prod.fst → i ≠ t →
      (carvedList cells t last L).get? i = cells.get? i := by
  intro L
  induction L with
  | nil =>
    intro cells last i _ hit
    rw [carvedList]
    exact tUpdate_get?_ne cells t last i hit
  | cons p rest ihp =>
    intro cells last i hi hit
    obtain ⟨c, d⟩ := p
    rw [carvedList]
    have hic : i ≠ c := fun he => hi (by rw [he]; exact List.mem_cons_self _ _)
    rw [ihp _ (some d) i (fun hm => hi (List.mem_cons.mpr (Or.inr hm))) hit]
    exact List.get?_set_ne _ cells (fun he => hic he.symm)

/-- The head cell of the chain ends as `InMaze (carveBits d last)`. -/
theorem carvedList_get?_head (t : Nat) (L : List (Nat × Direction))
    (cells : List GCell) (last : Option Direction) (c : Nat) (d : Direction)
    (hc : c ∉ L.map Prod.fst) (hct : c ≠ t) (hlt : c < cells.length) :
    (carvedList cells t last ((c, d) :: L)).get? c
      = some (.InMaze (carveBits d last)) := by
  rw [carvedList, carvedList_get?_untouched t L _ (some d) c hc hct]
  exact List.get?_set_eq_of_lt _ hlt

/-- The direction along which the carve finally enters `t`. -/
def finalDir (last : Option Direction) : List (Nat × Direction) → Option Direction
  | [] => last
  | (_, d) :: rest => finalDir (some d) rest

/-- The bits of the final cell `t` after the carve. -/
def tBits (mc : MazeCell) : Option Direction → MazeCell
  | some .East => mc.set_west_open
  | some .South => mc.set_north_open
  | some .North => mc
  | some .West => mc
  | none => mc

theorem carvedList_get?_t (t : Nat) :
    ∀ (L : List (Nat × Direction)) (cells : List GCell) (last : Option Direction)
      (mc : MazeCell), t ∉ L.map Prod.fst →
      cells.get? t = some (.InMaze mc) →
      (carvedList cells t last L).get? t = some (.InMaze (tBits mc (finalDir last L))) := by
  intro L
  induction L with
  | nil =>
    intro cells last mc _ htc
    rw [carvedList, finalDir]
    cases last with
    | none => exact htc
    | some l =>
      cases l with
      | North => exact htc
      | West => exact htc
      | East =>
        rw [tUpdate]
        simp only [htc]
        rw [tBits]
        exact List.get?_set_eq_of_lt _ (lt_of_get?_some htc)
      | South =>
        rw [tUpdate]
        simp only [htc]
        rw [tBits]
        exact List.get?_set_eq_of_lt _ (lt_of_get?_some htc)
  | cons p rest ihp =>
    intro cells last mc htn htc
    obtain ⟨c, d⟩ := p
    have hct : c ≠ t := fun he => htn (by rw [← he]; exact List.mem_cons_self _ _)
    rw [carvedList, finalDir]
    exact ihp _ (some d) mc (fun hm => htn (List.mem_cons.mpr (Or.inr hm)))
      (by rw [List.get?_set_ne _ cells hct]; exact htc)

theorem set_inmaze_iff (cells : List GCell) (c : Nat) (X : MazeCell)
    (hlt : c < cells.length) (i : Nat) :
    gInMaze (cells.set c (.InMaze X)) i ↔ (i = c ∨ gInMaze cells i) := by
  by_cases hic : i = c
  · subst hic
    simp only [true_or, iff_true]
    exact ⟨X, List.get?_set_eq_of_lt _ hlt⟩
  · constructor
    · rintro ⟨mc, hmc⟩
      rw [List.get?_set_ne _ cells (fun he => hic he.symm)] at hmc
      exact Or.inr ⟨mc, hmc⟩
    · rintro (rfl | ⟨mc, hmc⟩)
      · exact absurd rfl hic
      · exact ⟨mc, by rw [List.get?_set_ne _ cells (fun he => hic he.symm)]; exact hmc⟩

theorem tUpdate_inmaze_iff (cells : List GCell) (t : Nat) (last : Option Direction)
    (i : Nat) : gInMaze (tUpdate cells t last) i ↔ gInMaze cells i := by
  cases last with
  | none => exact Iff.rfl
  | some l =>
    cases l with
    | North => exact Iff.rfl
    | West => exact Iff.rfl
    | East =>
      rw [tUpdate]
      cases hg : cells.get? t with
      | none => exact Iff.rfl
      | some c0 =>
        cases c0 with
        | Empty => exact Iff.rfl
        | Walk d0 => exact Iff.rfl
        | InMaze mc =>
          rw [set_inmaze_iff cells t _ (lt_of_get?_some hg) i]
          constructor
          · rintro (rfl | h)
            · exact ⟨mc, hg⟩
            · exact h
          · exact Or.inr
    | South =>
      rw [tUpdate]
      cases hg : cells.get? t with
      | none => exact Iff.rfl
      | some c0 =>
        cases c0 with
        | Empty => exact Iff.rfl
        | Walk d0 => exact Iff.rfl
        | InMaze mc =>
          rw [set_inmaze_iff cells t _ (lt_of_get?_some hg) i]
          constructor
          · rintro (rfl | h)
            · exact ⟨mc, hg⟩
            · exact h
          · exact Or.inr

/-- After the carve, the `InMaze` cells are the old ones plus the chain. -/
theorem carvedList_inmaze_iff (W H t : Nat) :
    ∀ (L : List (Nat × Direction)) (cells : List GCell) (curr : Nat)
      (last : Option Direction),
      DChain W H cells curr t L → (L.map Prod.fst).Nodup →
      ∀ i, gInMaze (carvedList cells t last L) i ↔ (gInMaze cells i ∨ i ∈ L.map Prod.fst) := by
  intro L
  induction L with
  | nil =>
    intro cells curr last _ _ i
    rw [carvedList, tUpdate_inmaze_iff]
    simp
  | cons p rest ihp =>
    intro cells curr last hchain hnodup i
    obtain ⟨c, d⟩ := p
    obtain ⟨rfl, hg, next, hadj, hrest⟩ := dchain_cons_inv hchain
    rw [carvedList]
    have hlt : c < cells.length := lt_of_get?_some hg
    have hnodup2 : (c :: rest.map Prod.fst).Nodup := hnodup
    have hmem : c ∉ rest.map Prod.fst := (List.nodup_cons.mp hnodup2).1
    rw [ihp _ next (some d) (dchain_set_other hrest c _ hmem)
      (List.nodup_cons.mp hnodup2).2]
    rw [set_inmaze_iff cells c _ hlt i]
    constructor
    · rintro ((rfl | h) | h)
      · exact Or.inr (by simp)
      · exact Or.inl h
      · exact Or.inr (List.mem_cons.mpr (Or.inr h))
    · rintro (h | h)
      · exact Or.inl (Or.inr h)
      · rcases List.mem_cons.mp h with rfl | h2
        · exact Or.inl (Or.inl rfl)
        · exact Or.inr h2

theorem carveBits_north (d : Direction) (last : Option Direction) :
    (carveBits d last).north_open = true ↔ (d = .North ∨ last = some .South) := by
  rw [carveBits, MazeCell.north_open_new]
  cases d <;> rcases last with _ | (_ | _ | _ | _) <;> decide

theorem carveBits_west (d : Direction) (last : Option Direction) :
    (carveBits d last).west_open = true ↔ (d = .West ∨ last = some .East) := by
  rw [carveBits, MazeCell.west_open_new]
  cases d <;> rcases last with _ | (_ | _ | _ | _) <;> decide

theorem gEdge_of_get?_eq {W : Nat} {cells cells' : List GCell} {u v : Nat}
    (hu : cells'.get? u = cells.get? u) (h : gEdge W cells' u v) : gEdge W cells u v := by
  rcases h with ⟨⟨mc, hmc, hb⟩, h1, h2⟩ | ⟨⟨mc, hmc, hb⟩, h1, h2⟩
  · rw [hu] at hmc
    exact Or.inl ⟨⟨mc, hmc, hb⟩, h1, h2⟩
  · rw [hu] at hmc
    exact Or.inr ⟨⟨mc, hmc, hb⟩, h1, h2⟩

theorem tUpdate_edge_cases (W t : Nat) (cells : List GCell) (mc : MazeCell)
    (htc : cells.get? t = some (.InMaze mc)) (last : Option Direction) (u v : Nat)
    (hedge : gEdge W (tUpdate cells t last) u v) :
    gEdge W cells u v
    ∨ (last = some .East ∧ u = t ∧ v = t - 1)
    ∨ (last = some .South ∧ u = t ∧ v = t - W) := by
  by_cases hut : u = t
  · cases last with
    | none => exact Or.inl hedge
    | some l =>
      cases l with
      | North => exact Or.inl hedge
      | West => exact Or.inl hedge
      | East =>
        rw [tUpdate] at hedge
        simp only [htc] at hedge
        rcases hedge with ⟨⟨mc', hmc', hb⟩, h1, h2⟩ | ⟨⟨mc', hmc', hb⟩, h1, h2⟩
        · rw [hut, List.get?_set_eq_of_lt _ (lt_of_get?_some htc)] at hmc'
          obtain rfl : mc.set_west_open = mc' := by injection Option.some.inj hmc'
          rw [MazeCell.north_open_set_west] at hb
          exact Or.inl (Or.inl ⟨⟨mc, by rw [hut]; exact htc, hb⟩, h1, h2⟩)
        · rw [hut, List.get?_set_eq_of_lt _ (lt_of_get?_some htc)] at hmc'
          obtain rfl : mc.set_west_open = mc' := by injection Option.some.inj hmc'
          cases hmw : mc.west_open with
          | true => exact Or.inl (Or.inr ⟨⟨mc, by rw [hut]; exact htc, hmw⟩, h1, h2⟩)
          | false =>
            refine Or.inr (Or.inl ⟨rfl, hut, ?_⟩)
            rw [← hut]
            exact h2
      | South =>
        rw [tUpdate] at hedge
        simp only [htc] at hedge
        rcases hedge with ⟨⟨mc', hmc', hb⟩, h1, h2⟩ | ⟨⟨mc', hmc', hb⟩, h1, h2⟩
        · rw [hut, List.get?_set_eq_of_lt _ (lt_of_get?_some htc)] at hmc'
          obtain rfl : mc.set_north_open = mc' := by injection Option.some.inj hmc'
          cases hmn : mc.north_open with
          | true => exact Or.inl (Or.inl ⟨⟨mc, by rw [hut]; exact htc, hmn⟩, h1, h2⟩)
          | false =>
            refine Or.inr (Or.inr ⟨rfl, hut, ?_⟩)
            rw [← hut]
            exact h2
        · rw [hut, List.get?_set_eq_of_lt _ (lt_of_get?_some htc)] at hmc'
          obtain rfl : mc.set_north_open = mc' := by injection Option.some.inj hmc'
          rw [MazeCell.west_open_set_north] at hb
          exact Or.inl (Or.inr ⟨⟨mc, by rw [hut]; exact htc, hb⟩, h1, h2⟩)
  · exact Or.inl (gEdge_of_get?_eq (tUpdate_get?_ne cells t last u hut) hedge)

/-- Every open-wall edge of the carved state is an old edge, a step of the
chain (in either orientation), or — mid-carve only — the pending edge from
the entered side of the head cell. -/
theorem carvedList_edge_cases (W H t : Nat) :
    ∀ (L : List (Nat × Direction)) (cells : List GCell) (curr : Nat)
      (last : Option Direction) (mc : MazeCell),
      DChain W H cells curr t L → (L.map Prod.fst).Nodup → t ∉ L.map Prod.fst →
      cells.get? t = some (.InMaze mc) →
      ∀ u v, gEdge W (carvedList cells t last L) u v →
        gEdge W cells u v
        ∨ (∃ d0, (u, d0) ∈ L ∧ adjacent_index W H u d0 = some v)
        ∨ (∃ d0, (v, d0) ∈ L ∧ adjacent_index W H v d0 = some u)
        ∨ (last = some .East ∧ u = curr ∧ v = curr - 1)
        ∨ (last = some .South ∧ u = curr ∧ v = curr - W) := by
  intro L
  induction L with
  | nil =>
    intro cells curr last mc hchain hnodup htn htc u v hedge
    obtain rfl := dchain_nil_inv hchain
    rw [carvedList] at hedge
    rcases tUpdate_edge_cases W _ cells mc htc last u v hedge with
      h | ⟨he, rfl, rfl⟩ | ⟨hs, rfl, rfl⟩
    · exact Or.inl h
    · exact Or.inr (Or.inr (Or.inr (Or.inl ⟨he, rfl, rfl⟩)))
    · exact Or.inr (Or.inr (Or.inr (Or.inr ⟨hs, rfl, rfl⟩)))
  | cons p rest ihp =>
    intro cells curr last mc hchain hnodup htn htc u v hedge
    obtain ⟨c, d⟩ := p
    obtain ⟨rfl, hg, next, hadj, hrest⟩ := dchain_cons_inv hchain
    have hlt : c < cells.length := lt_of_get?_some hg
    have hnodup2 : (c :: rest.map Prod.fst).Nodup := hnodup
    have hcnotin : c ∉ rest.map Prod.fst := (List.nodup_cons.mp hnodup2).1
    have hct : c ≠ t := fun he => htn (by rw [← he]; exact List.mem_cons_self _ _)
    rw [carvedList] at hedge
    have hres := ihp (cells.set c (.InMaze (carveBits d last))) next (some d) mc
      (dchain_set_other hrest c _ hcnotin) (List.nodup_cons.mp hnodup2).2
      (fun hm => htn (List.mem_cons.mpr (Or.inr hm)))
      (by rw [List.get?_set_ne _ cells hct]; exact htc) u v hedge
    rcases hres with h | ⟨d0, hd0, hd0a⟩ | ⟨d0, hd0, hd0a⟩ | ⟨hde, rfl, rfl⟩ | ⟨hds, rfl, rfl⟩
    · by_cases huc : u = c
      · rcases h with ⟨⟨mc', hmc', hb⟩, h1, h2⟩ | ⟨⟨mc', hmc', hb⟩, h1, h2⟩
        · rw [huc, List.get?_set_eq_of_lt _ hlt] at hmc'
          obtain rfl : carveBits d last = mc' := by injection Option.some.inj hmc'
          rcases (carveBits_north d last).mp hb with rfl | rfl
          · refine Or.inr (Or.inl ⟨.North, ?_, ?_⟩)
            · rw [huc]; exact List.mem_cons_self _ _
            · rw [adjacent_index, if_neg (show ¬ u < W by omega), h2]
          · refine Or.inr (Or.inr (Or.inr (Or.inr ⟨rfl, huc, ?_⟩)))
            rw [← huc]
            exact h2
        · rw [huc, List.get?_set_eq_of_lt _ hlt] at hmc'
          obtain rfl : carveBits d last = mc' := by injection Option.some.inj hmc'
          rcases (carveBits_west d last).mp hb with rfl | rfl
          · refine Or.inr (Or.inl ⟨.West, ?_, ?_⟩)
            · rw [huc]; exact List.mem_cons_self _ _
            · rw [adjacent_index, if_neg h1, h2]
          · refine Or.inr (Or.inr (Or.inr (Or.inl ⟨rfl, huc, ?_⟩)))
            rw [← huc]
            exact h2
      · exact Or.inl (gEdge_of_get?_eq
          (List.get?_set_ne _ cells (fun he => huc he.symm)) h)
    · exact Or.inr (Or.inl ⟨d0, List.mem_cons.mpr (Or.inr hd0), hd0a⟩)
    · exact Or.inr (Or.inr (Or.inl ⟨d0, List.mem_cons.mpr (Or.inr hd0), hd0a⟩))
    · obtain rfl : d = .East := by injection hde
      have hu1 : u = c + 1 := by
        rw [adjacent_index] at hadj
        split at hadj
        · exact absurd hadj (by simp)
        · exact (Option.some.inj hadj).symm
      have hvc : u - 1 = c := by omega
      rw [hvc]
      exact Or.inr (Or.inr (Or.inl ⟨.East, List.mem_cons_self _ _, hadj⟩))
    · obtain rfl : d = .South := by injection hds
      have hu1 : u = c + W := by
        rw [adjacent_index] at hadj
        split at hadj
        · exact absurd hadj (by simp)
        · exact (Option.some.inj hadj).symm
      have hvc : u - W = c := by omega
      rw [hvc]
      exact Or.inr (Or.inr (Or.inl ⟨.South, List.mem_cons_self _ _, hadj⟩))

theorem tBits_north_mono (mc : MazeCell) (f : Option Direction)
    (h : mc.north_open = true) : (tBits mc f).north_open = true := by
  rcases f with _ | (_ | _ | _ | _) <;>
    simp [tBits, MazeCell.north_open_set_west, MazeCell.north_open_set_north, h]

theorem tBits_west_mono (mc : MazeCell) (f : Option Direction)
    (h : mc.west_open = true) : (tBits mc f).west_open = true := by
  rcases f with _ | (_ | _ | _ | _) <;>
    simp [tBits, MazeCell.west_open_set_west, MazeCell.west_open_set_north, h]

/-- Old open-wall edges survive the carve. -/
theorem carved_edge_mono (W H t : Nat) (L : List (Nat × Direction))
    (cells : List GCell) (curr : Nat) (last : Option Direction) (mc : MazeCell)
    (hchain : DChain W H cells curr t L) (hnodup : (L.map Prod.fst).Nodup)
    (htn : t ∉ L.map Prod.fst) (htc : cells.get? t = some (.InMaze mc)) :
    ∀ u v, gEdge W cells u v → gEdge W (carvedList cells t last L) u v := by
  intro u v hedge
  by_cases hmem : u ∈ L.map Prod.fst
  · obtain ⟨dw, hdw⟩ := dchain_cells_walk hchain u hmem
    obtain ⟨mc', hmc'⟩ := gEdge_inmaze_left hedge
    rw [hdw] at hmc'
    exact absurd (Option.some.inj hmc') (by simp)
  · by_cases hut : u = t
    · have hval : (carvedList cells t last L).get? u
          = some (.InMaze (tBits mc (finalDir last L))) := by
        rw [hut]; exact carvedList_get?_t t L cells last mc htn htc
      have htcu : cells.get? u = some (.InMaze mc) := by rw [hut]; exact htc
      rcases hedge with ⟨⟨mc0, hmc0, hb⟩, h1, h2⟩ | ⟨⟨mc0, hmc0, hb⟩, h1, h2⟩
      · rw [htcu] at hmc0
        obtain rfl : mc = mc0 := by injection Option.some.inj hmc0
        exact Or.inl ⟨⟨tBits mc (finalDir last L), hval,
          tBits_north_mono mc _ hb⟩, h1, h2⟩
      · rw [htcu] at hmc0
        obtain rfl : mc = mc0 := by injection Option.some.inj hmc0
        exact Or.inr ⟨⟨tBits mc (finalDir last L), hval,
          tBits_west_mono mc _ hb⟩, h1, h2⟩
    · have hu : (carvedList cells t last L).get? u = cells.get? u :=
        carvedList_get?_untouched t L cells last u hmem hut
      rcases hedge with ⟨⟨mc0, hmc0, hb⟩, h1, h2⟩ | ⟨⟨mc0, hmc0, hb⟩, h1, h2⟩
      · exact Or.inl ⟨⟨mc0, by rw [hu]; exact hmc0, hb⟩, h1, h2⟩
      · exact Or.inr ⟨⟨mc0, by rw [hu]; exact hmc0, hb⟩, h1, h2⟩

theorem carved_reach_mono (W H t : Nat) (L : List (Nat × Direction))
    (cells : List GCell) (curr : Nat) (last : Option Direction) (mc : MazeCell)
    (hchain : DChain W H cells curr t L) (hnodup : (L.map Prod.fst).Nodup)
    (htn : t ∉ L.map Prod.fst) (htc : cells.get? t = some (.InMaze mc)) :
    ∀ u v, gReach W cells u v → gReach W (carvedList cells t last L) u v := by
  intro u v h
  induction h with
  | refl => exact .refl
  | tail hab hbc ih =>
    refine ih.tail ?_
    rcases hbc with he | he
    · exact Or.inl (carved_edge_mono W H t L cells curr last mc hchain hnodup htn htc _ _ he)
    · exact Or.inr (carved_edge_mono W H t L cells curr last mc hchain hnodup htn htc _ _ he)

/-- Every chain cell reaches `t` in the carved state. -/
theorem carved_chain_reach (W H t : Nat) (hW : 1 ≤ W) :
    ∀ (L : List (Nat × Direction)) (cells : List GCell) (curr : Nat)
      (last : Option Direction) (mc : MazeCell),
      DChain W H cells curr t L → (L.map Prod.fst).Nodup → t ∉ L.map Prod.fst →
      cells.get? t = some (.InMaze mc) →
      ∀ x, (x = curr ∨ x ∈ L.map Prod.fst) →
        gReach W (carvedList cells t last L) x t := by
  intro L
  induction L with
  | nil =>
    intro cells curr last mc hchain _ _ _ x hx
    obtain rfl := dchain_nil_inv hchain
    rcases hx with rfl | hx
    · exact .refl
    · exact absurd hx (List.not_mem_nil x)
  | cons p rest ihp =>
    intro cells curr last mc hchain hnodup htn htc x hx
    obtain ⟨c, d⟩ := p
    obtain ⟨rfl, hg, next, hadj, hrest⟩ := dchain_cons_inv hchain
    have hlt : c < cells.length := lt_of_get?_some hg
    have hnodup2 : (c :: rest.map Prod.fst).Nodup := hnodup
    have hcnotin : c ∉ rest.map Prod.fst := (List.nodup_cons.mp hnodup2).1
    have hnodup3 : (rest.map Prod.fst).Nodup := (List.nodup_cons.mp hnodup2).2
    have htn3 : t ∉ rest.map Prod.fst := fun hm => htn (List.mem_cons.mpr (Or.inr hm))
    have hct : c ≠ t := fun he => htn (by rw [← he]; exact List.mem_cons_self _ _)
    have hchain' : DChain W H (cells.set c (.InMaze (carveBits d last))) next t rest :=
      dchain_set_other hrest c _ hcnotin
    have htc' : (cells.set c (.InMaze (carveBits d last))).get? t = some (.InMaze mc) := by
      rw [List.get?_set_ne _ cells hct]; exact htc
    rw [carvedList]
    have hx2 : x = c ∨ x ∈ rest.map Prod.fst := by
      rcases hx with h | h
      · exact Or.inl h
      · exact List.mem_cons.mp h
    rcases hx2 with rfl | hx2
    · -- x = c: one adjacency step to `next`, then the tail chain
      have hcval : (carvedList (cells.set x (.InMaze (carveBits d last))) t (some d) rest).get? x
          = some (.InMaze (carveBits d last)) := by
        rw [carvedList_get?_untouched t rest _ (some d) x hcnotin hct]
        exact List.get?_set_eq_of_lt _ hlt
      have hstep : gAdj W (carvedList (cells.set x (.InMaze (carveBits d last))) t
          (some d) rest) x next := by
        cases d with
        | North =>
          obtain ⟨hle, hnv, -⟩ := adjacent_north_inv W H x next hadj
          exact Or.inl (Or.inl ⟨⟨carveBits .North last, hcval,
            (carveBits_north .North last).mpr (Or.inl rfl)⟩, hle, hnv⟩)
        | West =>
          obtain ⟨hg0, hnv, -⟩ := adjacent_west_inv W H x next hadj
          exact Or.inl (Or.inr ⟨⟨carveBits .West last, hcval,
            (carveBits_west .West last).mpr (Or.inl rfl)⟩, hg0, hnv⟩)
        | East =>
          obtain ⟨-, hnv, -, hnm⟩ := adjacent_east_inv W H x next hW hadj
          cases rest with
          | nil =>
            obtain rfl := dchain_nil_inv hchain'
            have htval := carvedList_get?_t next [] (cells.set x (.InMaze (carveBits .East last)))
              (some .East) mc (List.not_mem_nil next) htc'
            refine Or.inr (Or.inr ⟨⟨tBits mc (some .East), htval, ?_⟩, hnm, by omega⟩)
            rw [tBits]
            exact MazeCell.west_open_set_west mc
          | cons p2 rest2 =>
            obtain ⟨c2, d2⟩ := p2
            obtain ⟨rfl, hg2, next2, hadj2, hrest2⟩ := dchain_cons_inv hchain'
            have hc2lt : c2 < (cells.set x (.InMaze (carveBits .East last))).length :=
              lt_of_get?_some hg2
            have hc2notin : c2 ∉ rest2.map Prod.fst := by
              have : (c2 :: rest2.map Prod.fst).Nodup := hnodup3
              exact (List.nodup_cons.mp this).1
            have hc2t : c2 ≠ t := fun he => htn3 (by rw [← he]; exact List.mem_cons_self _ _)
            have hc2val := carvedList_get?_head t rest2
              (cells.set x (.InMaze (carveBits .East last))) (some .East) c2 d2
              hc2notin hc2t hc2lt
            refine Or.inr (Or.inr ⟨⟨carveBits d2 (some .East), hc2val,
              (carveBits_west d2 (some .East)).mpr (Or.inr rfl)⟩, hnm, by omega⟩)
        | South =>
          obtain ⟨-, hnv, hWn, hsub⟩ := adjacent_south_inv W H x next hadj
          cases rest with
          | nil =>
            obtain rfl := dchain_nil_inv hchain'
            have htval := carvedList_get?_t next [] (cells.set x (.InMaze (carveBits .South last)))
              (some .South) mc (List.not_mem_nil next) htc'
            refine Or.inr (Or.inl ⟨⟨tBits mc (some .South), htval, ?_⟩, hWn, hsub.symm ▸ rfl⟩)
            rw [tBits]
            exact MazeCell.north_open_set_north mc
          | cons p2 rest2 =>
            obtain ⟨c2, d2⟩ := p2
            obtain ⟨rfl, hg2, next2, hadj2, hrest2⟩ := dchain_cons_inv hchain'
            have hc2lt : c2 < (cells.set x (.InMaze (carveBits .South last))).length :=
              lt_of_get?_some hg2
            have hc2notin : c2 ∉ rest2.map Prod.fst := by
              have : (c2 :: rest2.map Prod.fst).Nodup := hnodup3
              exact (List.nodup_cons.mp this).1
            have hc2t : c2 ≠ t := fun he => htn3 (by rw [← he]; exact List.mem_cons_self _ _)
            have hc2val := carvedList_get?_head t rest2
              (cells.set x (.InMaze (carveBits .South last))) (some .South) c2 d2
              hc2notin hc2t hc2lt
            refine Or.inr (Or.inl ⟨⟨carveBits d2 (some .South), hc2val,
              (carveBits_north d2 (some .South)).mpr (Or.inr rfl)⟩, hWn, hsub.symm ▸ rfl⟩)
      exact Relation.ReflTransGen.head hstep
        (ihp _ next (some d) mc hchain' hnodup3 htn3 htc' next (Or.inl rfl))
    · exact ihp _ next (some d) mc hchain' hnodup3 htn3 htc' x (Or.inr hx2)

/-- Extend a rank function over the carve chain: chain cells get fresh
strictly descending ranks above every old rank. -/
theorem carved_ord_exists (W H t : Nat) (hW : 1 ≤ W) :
    ∀ (L : List (Nat × Direction)) (cells : List GCell) (curr : Nat)
      (mc : MazeCell) (ordOld : Nat → Nat),
      DChain W H cells curr t L → (L.map Prod.fst).Nodup → t ∉ L.map Prod.fst →
      cells.get? t = some (.InMaze mc) →
      ∃ ord : Nat → Nat,
        (∀ i, i ∉ L.map Prod.fst → ord i = ordOld i)
        ∧ (∀ u, u ∈ L.map Prod.fst → ∀ i, i < cells.length → i ∉ L.map Prod.fst →
            ordOld i < ord u)
        ∧ (∀ u w, u ∈ L.map Prod.fst → w ∈ L.map Prod.fst → ord u = ord w → u = w)
        ∧ (∀ u d0 v, (u, d0) ∈ L → adjacent_index W H u d0 = some v → ord v < ord u) := by
  intro L
  induction L with
  | nil =>
    intro cells curr mc ordOld hchain hnodup htn htc
    refine ⟨ordOld, fun i _ => rfl, ?_, ?_, ?_⟩
    · intro u hu; exact absurd hu (List.not_mem_nil u)
    · intro u w hu; exact absurd hu (List.not_mem_nil u)
    · intro u d0 v hm; exact absurd hm (List.not_mem_nil _)
  | cons p rest ihp =>
    intro cells curr mc ordOld hchain hnodup htn htc
    obtain ⟨c, d⟩ := p
    obtain ⟨rfl, hg, next, hadj, hrest⟩ := dchain_cons_inv hchain
    have hnodup2 : (c :: rest.map Prod.fst).Nodup := hnodup
    have hcnotin : c ∉ rest.map Prod.fst := (List.nodup_cons.mp hnodup2).1
    have hnodup3 : (rest.map Prod.fst).Nodup := (List.nodup_cons.mp hnodup2).2
    have htn3 : t ∉ rest.map Prod.fst := fun hm => htn (List.mem_cons.mpr (Or.inr hm))
    have hct : c ≠ t := fun he => htn (by rw [← he]; exact List.mem_cons_self _ _)
    obtain ⟨ord2, ho1, ho2, ho3, ho4⟩ :=
      ihp cells next mc ordOld hrest hnodup3 htn3 htc
    have hrest_lt : ∀ w ∈ rest.map Prod.fst, w < cells.length := by
      intro w hw
      obtain ⟨dw, hdw⟩ := dchain_cells_walk hrest w hw
      exact lt_of_get?_some hdw
    have hnext_lt : next < cells.length := by
      cases rest with
      | nil =>
        obtain rfl := dchain_nil_inv hrest
        exact lt_of_get?_some htc
      | cons p2 rest2 =>
        obtain ⟨c2, d2⟩ := p2
        obtain ⟨rfl, hg2, -⟩ := dchain_cons_inv hrest
        exact lt_of_get?_some hg2
    have hsup : ∀ i, i < cells.length →
        ord2 i ≤ (Finset.range cells.length).sup ord2 := by
      intro i hi
      exact Finset.le_sup (Finset.mem_range.mpr hi)
    refine ⟨fun i => if i = c then (Finset.range cells.length).sup ord2 + 1 else ord2 i,
      ?_, ?_, ?_, ?_⟩
    · intro i hi
      simp only []
      have hic : i ≠ c := fun he => hi (by rw [he]; exact List.mem_cons_self _ _)
      have hir : i ∉ rest.map Prod.fst := fun hm => hi (List.mem_cons.mpr (Or.inr hm))
      rw [if_neg hic]
      exact ho1 i hir
    · intro u hu i hilen hi
      simp only []
      have hic : i ≠ c := fun he => hi (by rw [he]; exact List.mem_cons_self _ _)
      have hir : i ∉ rest.map Prod.fst := fun hm => hi (List.mem_cons.mpr (Or.inr hm))
      rcases List.mem_cons.mp hu with rfl | hu2
      · rw [if_pos rfl]
        have h1 : ordOld i = ord2 i := (ho1 i hir).symm
        have h2 := hsup i hilen
        omega
      · have huc : u ≠ c := fun he => hcnotin (he ▸ hu2)
        rw [if_neg huc]
        exact ho2 u hu2 i hilen hir
    · intro u w hu hw
      simp only []
      rcases List.mem_cons.mp hu with rfl | hu2
      · rcases List.mem_cons.mp hw with rfl | hw2
        · intro _; rfl
        · have hwc : w ≠ u := fun he => hcnotin (he ▸ hw2)
          rw [if_pos rfl, if_neg hwc]
          intro heq
          have := hsup w (hrest_lt w hw2)
          omega
      · have huc : u ≠ c := fun he => hcnotin (he ▸ hu2)
        rcases List.mem_cons.mp hw with rfl | hw2
        · rw [if_neg huc, if_pos rfl]
          intro heq
          have := hsup u (hrest_lt u hu2)
          omega
        · have hwc : w ≠ c := fun he => hcnotin (he ▸ hw2)
          rw [if_neg huc, if_neg hwc]
          exact ho3 u w hu2 hw2
    · intro u d0 v hm hv
      simp only []
      rcases List.mem_cons.mp hm with heq | hm2
      · have hu : u = c := congrArg Prod.fst heq
        have hd : d0 = d := congrArg Prod.snd heq
        have hvn : v = next := by
          rw [hu, hd, hadj] at hv
          exact (Option.some.inj hv).symm
        have hne : next ≠ c := adjacent_index_ne W H c next hW d hadj
        rw [hu, hvn, if_pos rfl, if_neg hne]
        have := hsup next hnext_lt
        omega
      · have hu2 : u ∈ rest.map Prod.fst :=
          List.mem_map.mpr ⟨(u, d0), hm2, rfl⟩
        have huc : u ≠ c := fun he => hcnotin (he ▸ hu2)
        have hvmem := dchain_succ_mem hrest hnodup3 u d0 v hm2 hv
        have hvc : v ≠ c := by
          rcases hvmem with h | rfl
          · exact fun he => hcnotin (he ▸ h)
          · exact fun he => hct he.symm
        rw [if_neg huc, if_neg hvc]
        exact ho4 u d0 v hm2 hv

theorem tBits_west_cases (mc : MazeCell) (f : Option Direction)
    (h : (tBits mc f).west_open = true) : mc.west_open = true ∨ f = some .East := by
  rcases f with _ | (_ | _ | _ | _)
  · exact Or.inl h
  · exact Or.inl h
  · rw [tBits, MazeCell.west_open_set_north] at h; exact Or.inl h
  · exact Or.inr rfl
  · exact Or.inl h

theorem tBits_north_cases (mc : MazeCell) (f : Option Direction)
    (h : (tBits mc f).north_open = true) : mc.north_open = true ∨ f = some .South := by
  rcases f with _ | (_ | _ | _ | _)
  · exact Or.inl h
  · exact Or.inl h
  · exact Or.inr rfl
  · rw [tBits, MazeCell.north_open_set_west] at h; exact Or.inl h
  · exact Or.inl h

/-- `consistW` survives the carve: each open west wall of the carved state
has its guard and an in-maze west neighbour. -/
theorem carvedList_consistW (W H t : Nat) (hW : 1 ≤ W) :
    ∀ (L : List (Nat × Direction)) (cells : List GCell) (curr : Nat)
      (last : Option Direction) (mc : MazeCell),
      DChain W H cells curr t L → (L.map Prod.fst).Nodup → t ∉ L.map Prod.fst →
      cells.get? t = some (.InMaze mc) →
      (∀ i, gBitW cells i → i % W ≠ 0 ∧ gInMaze (carvedList cells t last L) (i - 1)) →
      (last = some .East → curr % W ≠ 0 ∧ gInMaze (carvedList cells t last L) (curr - 1)) →
      ∀ i, gBitW (carvedList cells t last L) i →
        i % W ≠ 0 ∧ gInMaze (carvedList cells t last L) (i - 1) := by
  intro L
  induction L with
  | nil =>
    intro cells curr last mc hchain hnodup htn htc hconsW hlastE i hbit
    have hcurt := dchain_nil_inv hchain
    have hval := carvedList_get?_t t [] cells last mc (List.not_mem_nil t) htc
    obtain ⟨mc', hmc', hb⟩ := hbit
    by_cases hit : i = t
    · rw [hit, hval] at hmc'
      obtain rfl : tBits mc (finalDir last []) = mc' := by injection Option.some.inj hmc'
      have hfd : finalDir last [] = last := rfl
      rw [hfd] at hb
      rcases tBits_west_cases mc last hb with hwb | hE
      · rw [hit]; exact hconsW t ⟨mc, htc, hwb⟩
      · have h := hlastE hE
        rw [hcurt] at h
        rw [hit]
        exact h
    · rw [carvedList_get?_untouched t [] cells last i (List.not_mem_nil i) hit] at hmc'
      exact hconsW i ⟨mc', hmc', hb⟩
  | cons p rest ihp =>
    intro cells curr last mc hchain hnodup htn htc hconsW hlastE i hbit
    obtain ⟨c, d⟩ := p
    obtain ⟨rfl, hg, next, hadj, hrest⟩ := dchain_cons_inv hchain
    have hlt : c < cells.length := lt_of_get?_some hg
    have hnodup2 : (c :: rest.map Prod.fst).Nodup := hnodup
    have hcnotin : c ∉ rest.map Prod.fst := (List.nodup_cons.mp hnodup2).1
    have hnodup3 : (rest.map Prod.fst).Nodup := (List.nodup_cons.mp hnodup2).2
    have htn3 : t ∉ rest.map Prod.fst := fun hm => htn (List.mem_cons.mpr (Or.inr hm))
    have hct : c ≠ t := fun he => htn (by rw [← he]; exact List.mem_cons_self _ _)
    have hchain' : DChain W H (cells.set c (.InMaze (carveBits d last))) next t rest :=
      dchain_set_other hrest c _ hcnotin
    have htc' : (cells.set c (.InMaze (carveBits d last))).get? t = some (.InMaze mc) := by
      rw [List.get?_set_ne _ cells hct]; exact htc
    have hnext_in : gInMaze (cells.set c (.InMaze (carveBits d last))) next
        ∨ next ∈ rest.map Prod.fst := by
      cases rest with
      | nil =>
        have he := dchain_nil_inv hrest
        exact Or.inl ⟨mc, by rw [he]; exact htc'⟩
      | cons p2 rest2 =>
        obtain ⟨c2, d2⟩ := p2
        have he := (dchain_cons_inv hrest).1
        exact Or.inr (by rw [← he]; exact List.mem_cons_self _ _)
    have hiff := carvedList_inmaze_iff W H t rest
      (cells.set c (.InMaze (carveBits d last))) next (some d) hchain' hnodup3
    simp only [carvedList] at hconsW hlastE hbit ⊢
    refine ihp (cells.set c (.InMaze (carveBits d last))) next (some d) mc
      hchain' hnodup3 htn3 htc' ?_ ?_ i hbit
    · intro j hj
      by_cases hjc : j = c
      · obtain ⟨mc', hmc', hb⟩ := hj
        rw [hjc, List.get?_set_eq_of_lt _ hlt] at hmc'
        obtain rfl : carveBits d last = mc' := by injection Option.some.inj hmc'
        rcases (carveBits_west d last).mp hb with rfl | hE
        · obtain ⟨hg0, hnv, -⟩ := adjacent_west_inv W H c next hadj
          rw [hjc]
          refine ⟨hg0, ?_⟩
          rw [← hnv]
          exact (hiff next).mpr hnext_in
        · rw [hjc]
          exact hlastE hE
      · obtain ⟨mc', hmc', hb⟩ := hj
        rw [List.get?_set_ne _ cells (Ne.symm hjc)] at hmc'
        exact hconsW j ⟨mc', hmc', hb⟩
    · intro he
      have hd : d = .East := Option.some.inj he
      subst hd
      obtain ⟨-, hnv, -, hnm⟩ := adjacent_east_inv W H c next hW hadj
      refine ⟨hnm, ?_⟩
      have hn1 : next - 1 = c := by omega
      rw [hn1]
      exact (hiff c).mpr (Or.inl ⟨carveBits .East last, List.get?_set_eq_of_lt _ hlt⟩)

/-- `consistN` survives the carve: each open north wall of the carved state
has its guard and an in-maze north neighbour. -/
theorem carvedList_consistN (W H t : Nat) (hW : 1 ≤ W) :
    ∀ (L : List (Nat × Direction)) (cells : List GCell) (curr : Nat)
      (last : Option Direction) (mc : MazeCell),
      DChain W H cells curr t L → (L.map Prod.fst).Nodup → t ∉ L.map Prod.fst →
      cells.get? t = some (.InMaze mc) →
      (∀ i, gBitN cells i → W ≤ i ∧ gInMaze (carvedList cells t last L) (i - W)) →
      (last = some .South → W ≤ curr ∧ gInMaze (carvedList cells t last L) (curr - W)) →
      ∀ i, gBitN (carvedList cells t last L) i →
        W ≤ i ∧ gInMaze (carvedList cells t last L) (i - W) := by
  intro L
  induction L with
  | nil =>
    intro cells curr last mc hchain hnodup htn htc hconsN hlastS i hbit
    have hcurt := dchain_nil_inv hchain
    have hval := carvedList_get?_t t [] cells last mc (List.not_mem_nil t) htc
    obtain ⟨mc', hmc', hb⟩ := hbit
    by_cases hit : i = t
    · rw [hit, hval] at hmc'
      obtain rfl : tBits mc (finalDir last []) = mc' := by injection Option.some.inj hmc'
      have hfd : finalDir last [] = last := rfl
      rw [hfd] at hb
      rcases tBits_north_cases mc last hb with hnb | hS
      · rw [hit]; exact hconsN t ⟨mc, htc, hnb⟩
      · have h := hlastS hS
        rw [hcurt] at h
        rw [hit]
        exact h
    · rw [carvedList_get?_untouched t [] cells last i (List.not_mem_nil i) hit] at hmc'
      exact hconsN i ⟨mc', hmc', hb⟩
  | cons p rest ihp =>
    intro cells curr last mc hchain hnodup htn htc hconsN hlastS i hbit
    obtain ⟨c, d⟩ := p
    obtain ⟨rfl, hg, next, hadj, hrest⟩ := dchain_cons_inv hchain
    have hlt : c < cells.length := lt_of_get?_some hg
    have hnodup2 : (c :: rest.map Prod.fst).Nodup := hnodup
    have hcnotin : c ∉ rest.map Prod.fst := (List.nodup_cons.mp hnodup2).1
    have hnodup3 : (rest.map Prod.fst).Nodup := (List.nodup_cons.mp hnodup2).2
    have htn3 : t ∉ rest.map Prod.fst := fun hm => htn (List.mem_cons.mpr (Or.inr hm))
    have hct : c ≠ t := fun he => htn (by rw [← he]; exact List.mem_cons_self _ _)
    have hchain' : DChain W H (cells.set c (.InMaze (carveBits d last))) next t rest :=
      dchain_set_other hrest c _ hcnotin
    have htc' : (cells.set c (.InMaze (carveBits d last))).get? t = some (.InMaze mc) := by
      rw [List.get?_set_ne _ cells hct]; exact htc
    have hnext_in : gInMaze (cells.set c (.InMaze (carveBits d last))) next
        ∨ next ∈ rest.map Prod.fst := by
      cases rest with
      | nil =>
        have he := dchain_nil_inv hrest
        exact Or.inl ⟨mc, by rw [he]; exact htc'⟩
      | cons p2 rest2 =>
        obtain ⟨c2, d2⟩ := p2
        have he := (dchain_cons_inv hrest).1
        exact Or.inr (by rw [← he]; exact List.mem_cons_self _ _)
    have hiff := carvedList_inmaze_iff W H t rest
      (cells.set c (.InMaze (carveBits d last))) next (some d) hchain' hnodup3
    simp only [carvedList] at hconsN hlastS hbit ⊢
    refine ihp (cells.set c (.InMaze (carveBits d last))) next (some d) mc
      hchain' hnodup3 htn3 htc' ?_ ?_ i hbit
    · intro j hj
      by_cases hjc : j = c
      · obtain ⟨mc', hmc', hb⟩ := hj
        rw [hjc, List.get?_set_eq_of_lt _ hlt] at hmc'
        obtain rfl : carveBits d last = mc' := by injection Option.some.inj hmc'
        rcases (carveBits_north d last).mp hb with rfl | hS
        · obtain ⟨hle, hnv, -⟩ := adjacent_north_inv W H c next hadj
          rw [hjc]
          refine ⟨hle, ?_⟩
          rw [← hnv]
          exact (hiff next).mpr hnext_in
        · rw [hjc]
          exact hlastS hS
      · obtain ⟨mc', hmc', hb⟩ := hj
        rw [List.get?_set_ne _ cells (Ne.symm hjc)] at hmc'
        exact hconsN j ⟨mc', hmc', hb⟩
    · intro he
      have hd : d = .South := Option.some.inj he
      subst hd
      obtain ⟨-, hnv, hWn, hsub⟩ := adjacent_south_inv W H c next hadj
      refine ⟨hWn, ?_⟩
      rw [hsub]
      exact (hiff c).mpr (Or.inl ⟨carveBits .South last, List.get?_set_eq_of_lt _ hlt⟩)

theorem gEdge_inmaze_right (W H : Nat) {cells : List GCell} {i j : Nat}
    (hinv : Inv W H cells) (h : gEdge W cells i j) : gInMaze cells j := by
  rcases h with ⟨hb, hle, rfl⟩ | ⟨hb, hne, rfl⟩
  · exact (hinv.consistN i hb).2
  · exact (hinv.consistW i hb).2

/-- One carve pass preserves the spanning-tree invariant. -/
theorem carve_preserves_inv (W H t start : Nat) (hW : 1 ≤ W)
    (L : List (Nat × Direction)) (cells : List GCell) (mc : MazeCell)
    (hchain : DChain W H cells start t L) (hnodup : (L.map Prod.fst).Nodup)
    (htn : t ∉ L.map Prod.fst) (htc : cells.get? t = some (.InMaze mc))
    (hinv : Inv W H cells) :
    Inv W H (carvedList cells t none L) := by
  have hiff := carvedList_inmaze_iff W H t L cells start none hchain hnodup
  have hold_notchain : ∀ x, gInMaze cells x → x ∉ L.map Prod.fst := by
    intro x hx hxc
    obtain ⟨dx, hdx⟩ := dchain_cells_walk hchain x hxc
    obtain ⟨mcx, hmcx⟩ := hx
    rw [hdx] at hmcx
    exact absurd (Option.some.inj hmcx) (by simp)
  have hold_lt : ∀ x, gInMaze cells x → x < cells.length := by
    rintro x ⟨mcx, hmcx⟩
    exact lt_of_get?_some hmcx
  have hchain_lt : ∀ x, x ∈ L.map Prod.fst → x < cells.length := by
    intro x hx
    obtain ⟨dx, hdx⟩ := dchain_cells_walk hchain x hx
    exact lt_of_get?_some hdx
  have hreach_t : ∀ x, gInMaze (carvedList cells t none L) x →
      gReach W (carvedList cells t none L) x t := by
    intro x hx
    rcases (hiff x).mp hx with hold | hchn
    · exact carved_reach_mono W H t L cells start none mc hchain hnodup htn htc x t
        (hinv.conn x t hold ⟨mc, htc⟩)
    · exact carved_chain_reach W H t hW L cells start none mc hchain hnodup htn htc x
        (Or.inr hchn)
  have hclass : ∀ u v, gEdge W (carvedList cells t none L) u v →
      gEdge W cells u v
      ∨ (∃ d0, (u, d0) ∈ L ∧ adjacent_index W H u d0 = some v)
      ∨ (∃ d0, (v, d0) ∈ L ∧ adjacent_index W H v d0 = some u) := by
    intro u v he
    rcases carvedList_edge_cases W H t L cells start none mc hchain hnodup htn htc u v he with
      h | h | h | ⟨hE, -, -⟩ | ⟨hS, -, -⟩
    · exact Or.inl h
    · exact Or.inr (Or.inl h)
    · exact Or.inr (Or.inr h)
    · exact Option.noConfusion hE
    · exact Option.noConfusion hS
  refine ⟨?_, ?_, ?_, ?_, ?_⟩
  · rw [carvedList_length]
    exact hinv.len
  · refine carvedList_consistN W H t hW L cells start none mc hchain hnodup htn htc ?_ ?_
    · intro i hbit
      obtain ⟨h1, h2⟩ := hinv.consistN i hbit
      exact ⟨h1, (hiff _).mpr (Or.inl h2)⟩
    · intro h
      exact Option.noConfusion h
  · refine carvedList_consistW W H t hW L cells start none mc hchain hnodup htn htc ?_ ?_
    · intro i hbit
      obtain ⟨h1, h2⟩ := hinv.consistW i hbit
      exact ⟨h1, (hiff _).mpr (Or.inl h2)⟩
    · intro h
      exact Option.noConfusion h
  · intro i j hi hj
    exact (hreach_t i hi).trans (gReach_symm (hreach_t j hj))
  · obtain ⟨ord0, r, hrIn, hrMin, hInj, hAtMost⟩ := hinv.rank
    obtain ⟨ord, ho1, ho2, ho3, ho4⟩ :=
      carved_ord_exists W H t hW L cells start mc ord0 hchain hnodup htn htc
    have hrnc : r ∉ L.map Prod.fst := hold_notchain r hrIn
    have hrlt : r < cells.length := hold_lt r hrIn
    refine ⟨ord, r, (hiff r).mpr (Or.inl hrIn), ?_, ?_, ?_⟩
    · intro i hi
      rcases (hiff i).mp hi with hold | hchn
      · rw [ho1 r hrnc, ho1 i (hold_notchain i hold)]
        exact hrMin i hold
      · rw [ho1 r hrnc]
        exact le_of_lt (ho2 i hchn r hrlt hrnc)
    · intro i j hi hj heq
      rcases (hiff i).mp hi with holdi | hchni
      · rcases (hiff j).mp hj with holdj | hchnj
        · rw [ho1 i (hold_notchain i holdi), ho1 j (hold_notchain j holdj)] at heq
          exact hInj i j holdi holdj heq
        · exfalso
          rw [ho1 i (hold_notchain i holdi)] at heq
          have := ho2 j hchnj i (hold_lt i holdi) (hold_notchain i holdi)
          omega
      · rcases (hiff j).mp hj with holdj | hchnj
        · exfalso
          rw [ho1 j (hold_notchain j holdj)] at heq
          have := ho2 i hchni j (hold_lt j holdj) (hold_notchain j holdj)
          omega
        · exact ho3 i j hchni hchnj heq
    · intro v hv hvr u1 u2 ha1 ha2 hlt1 hlt2
      rcases (hiff v).mp hv with holdv | hchnv
      · -- v is an old in-maze cell: both neighbours reduce to the old certificate
        have hvnc : v ∉ L.map Prod.fst := hold_notchain v holdv
        have hvlt := hold_lt v holdv
        have hvv : ord v = ord0 v := ho1 v hvnc
        have hred : ∀ u, gAdj W (carvedList cells t none L) u v → ord u < ord v →
            gAdj W cells u v ∧ ord0 u < ord0 v := by
          intro u hadju hltu
          rcases hadju with he | he
          · rcases hclass u v he with h | ⟨d0, hm, hadj0⟩ | ⟨d0, hm, hadj0⟩
            · have hu_old : gInMaze cells u := gEdge_inmaze_left h
              have huu : ord u = ord0 u := ho1 u (hold_notchain u hu_old)
              exact ⟨Or.inl h, by omega⟩
            · exfalso
              have humem : u ∈ L.map Prod.fst := List.mem_map.mpr ⟨(u, d0), hm, rfl⟩
              have := ho2 u humem v hvlt hvnc
              omega
            · exact absurd (List.mem_map.mpr ⟨(v, d0), hm, rfl⟩) hvnc
          · rcases hclass v u he with h | ⟨d0, hm, hadj0⟩ | ⟨d0, hm, hadj0⟩
            · have hu_old : gInMaze cells u := gEdge_inmaze_right W H hinv h
              have huu : ord u = ord0 u := ho1 u (hold_notchain u hu_old)
              exact ⟨Or.inr h, by omega⟩
            · exact absurd (List.mem_map.mpr ⟨(v, d0), hm, rfl⟩) hvnc
            · exfalso
              have humem : u ∈ L.map Prod.fst := List.mem_map.mpr ⟨(u, d0), hm, rfl⟩
              have := ho2 u humem v hvlt hvnc
              omega
        obtain ⟨hadj1, hl1⟩ := hred u1 ha1 hlt1
        obtain ⟨hadj2, hl2⟩ := hred u2 ha2 hlt2
        exact hAtMost v holdv hvr u1 u2 hadj1 hadj2 hl1 hl2
      · -- v is a chain cell: its unique smaller neighbour is its chain successor
        have hv_not_old : ¬ gInMaze cells v := fun hvo => hold_notchain v hvo hchnv
        have hsucc : ∀ u, gAdj W (carvedList cells t none L) u v → ord u < ord v →
            ∃ d0, (v, d0) ∈ L ∧ adjacent_index W H v d0 = some u := by
          intro u hadju hltu
          rcases hadju with he | he
          · rcases hclass u v he with h | ⟨d0, hm, hadj0⟩ | ⟨d0, hm, hadj0⟩
            · exact absurd (gEdge_inmaze_right W H hinv h) hv_not_old
            · exfalso
              have := ho4 u d0 v hm hadj0
              omega
            · exact ⟨d0, hm, hadj0⟩
          · rcases hclass v u he with h | ⟨d0, hm, hadj0⟩ | ⟨d0, hm, hadj0⟩
            · exact absurd (gEdge_inmaze_left h) hv_not_old
            · exact ⟨d0, hm, hadj0⟩
            · exfalso
              have := ho4 u d0 v hm hadj0
              omega
        obtain ⟨d1, hm1, hadj1⟩ := hsucc u1 ha1 hlt1
        obtain ⟨d2, hm2, hadj2⟩ := hsucc u2 ha2 hlt2
        have hd12 : d1 = d2 := dchain_fst_unique hnodup v d1 d2 hm1 hm2
        rw [hd12, hadj2] at hadj1
        exact (Option.some.inj hadj1).symm

/-- The outer loop preserves the spanning-tree invariant. -/
theorem outerLoop_preserves_inv (W H : Nat) (hW : 1 ≤ W) (dirs : Nat → List Direction)
    (wfuel : Nat) :
    ∀ fuel k cells pool cellsF,
      Inv W H cells →
      outerLoop W H dirs wfuel fuel k cells pool = some cellsF →
      Inv W H cellsF := by
  intro fuel
  induction fuel with
  | zero => intro k cells pool cellsF _ h; exact absurd h (by simp [outerLoop])
  | succ fuel ih =>
    intro k cells pool cellsF hinv hout
    rw [outerLoop] at hout
    cases hcs : choose_walk_start cells pool with
    | none => rw [hcs] at hout; exact absurd hout (by simp)
    | some p =>
      obtain ⟨os, pool'⟩ := p
      cases os with
      | none =>
        simp only [hcs] at hout
        obtain rfl : cells = cellsF := Option.some.inj hout
        exact hinv
      | some s =>
        simp only [hcs] at hout
        cases hw : walkLoop W H dirs wfuel k cells [] s with
        | none => rw [hw] at hout; exact absurd hout (by simp)
        | some tr =>
          obtain ⟨cells1, wis, k'⟩ := tr
          simp only [hw] at hout
          cases hc : carveLoop W H wfuel cells1 s none with
          | none => simp only [hc] at hout; exact Option.noConfusion hout
          | some cells2 =>
            simp only [hc] at hout
            obtain ⟨⟨cstart, hcstart, hcne⟩, -⟩ :=
              choose_walk_start_some_spec cells pool s pool' hcs
            have hsne : ¬ gInMaze cells s := by
              rintro ⟨mc, hmc⟩
              rw [hcstart] at hmc
              exact hcne mc (Option.some.inj hmc)
            obtain ⟨hlen1, hiff1⟩ :=
              walkLoop_inmaze_iff W H dirs wfuel k cells [] s cells1 wis k' hsne hw
            have hinv1 : Inv W H cells1 := Inv_congr hlen1 hiff1 hinv
            obtain ⟨L', T, mcT, hchain1, hnodupL, htnL, htcT, -⟩ :=
              walkLoop_chain W H hW dirs wfuel k cells [] s s [] cells1 wis k' hw
                (DChain.nil s) (by simp) hsne (lt_of_get?_some hcstart)
            obtain rfl : cells2 = carvedList cells1 T none L' :=
              carve_eq W H L' cells1 s T mcT none wfuel cells2 hchain1 hnodupL htnL htcT hc
            have hinv2 : Inv W H (carvedList cells1 T none L') :=
              carve_preserves_inv W H T s hW L' cells1 mcT hchain1 hnodupL htnL htcT hinv1
            obtain ⟨hlen3, hiff3⟩ := cleanup_inmaze_iff wis (carvedList cells1 T none L')
            exact ih k' (cleanup (carvedList cells1 T none L') wis) pool' cellsF
              (Inv_congr hlen3 hiff3 hinv2) hout

/-- A successful emission characterises the cells pointwise. -/
theorem extractCells_some :
    ∀ (cells : List GCell) (mcs : List MazeCell), extractCells cells = some mcs →
      mcs.length = cells.length
      ∧ ∀ i mc, (mcs.get? i = some mc ↔ cells.get? i = some (.InMaze mc)) := by
  intro cells
  induction cells with
  | nil =>
    intro mcs h
    obtain rfl : ([] : List MazeCell) = mcs := Option.some.inj h
    exact ⟨rfl, fun i mc => by cases i <;> simp⟩
  | cons c tl ih =>
    intro mcs h
    cases c with
    | Empty => exact absurd h (by simp [extractCells])
    | Walk d => exact absurd h (by simp [extractCells])
    | InMaze mc0 =>
      rw [extractCells] at h
      cases hrest : extractCells tl with
      | none => rw [hrest] at h; exact absurd h (by simp)
      | some rest =>
        rw [hrest] at h
        obtain rfl : mc0 :: rest = mcs := by simpa using h
        obtain ⟨hl, hp⟩ := ih rest hrest
        refine ⟨by simp [hl], ?_⟩
        intro i mc
        cases i with
        | zero => simp
        | succ n => exact hp n mc

/-! #### The open-wall graph of an emitted maze -/

/-- The north-wall bit of maze cell `i` (false out of range). -/
def mazeBitN (m : Maze) (i : Nat) : Bool :=
  match m.cells.get? i with
  | some mc => mc.north_open
  | none => false

/-- The west-wall bit of maze cell `i` (false out of range). -/
def mazeBitW (m : Maze) (i : Nat) : Bool :=
  match m.cells.get? i with
  | some mc => mc.west_open
  | none => false

/-- Cell `i` owns an open wall towards `j`: north bit joins `i` to `i - W`,
west bit joins `i` to `i - 1` (the graph of the spec's spanning-tree
property). -/
def mazeEdgeB (m : Maze) (i j : Nat) : Bool :=
  (mazeBitN m i && decide (m.width ≤ i) && decide (j = i - m.width))
    || (mazeBitW m i && decide (i % m.width ≠ 0) && decide (j = i - 1))

/-- The open-wall graph on the maze's cells. -/
def mazeGraph (m : Maze) : SimpleGraph (Fin (m.width * m.height)) where
  Adj a b := ((mazeEdgeB m a.val b.val || mazeEdgeB m b.val a.val) = true) ∧ a ≠ b
  symm := by
    rintro a b ⟨he, hne⟩
    exact ⟨by rw [Bool.or_comm]; exact he, hne.symm⟩
  loopless := by
    rintro a ⟨-, hne⟩
    exact hne rfl

instance mazeGraphAdjDecidable (m : Maze) : DecidableRel (mazeGraph m).Adj :=
  fun a b => instDecidableAnd

/-- A cycle visits two distinct neighbours of its base point. -/
theorem cycle_neighbors {V : Type} {G : SimpleGraph V} {m : V} (c : G.Walk m m)
    (hc : c.IsCycle) :
    ∃ x y, x ≠ y ∧ G.Adj m x ∧ G.Adj m y ∧ x ∈ c.support ∧ y ∈ c.support := by
  have hlen : 3 ≤ c.length := hc.three_le_length
  cases c with
  | nil => simp at hlen
  | cons h q =>
    rename_i x
    have hqlen : 2 ≤ q.length := by
      have : (SimpleGraph.Walk.cons h q).length = q.length + 1 :=
        SimpleGraph.Walk.length_cons h q
      omega
    have hqn : ¬ q.reverse.Nil := by
      intro hn
      rw [SimpleGraph.Walk.nil_iff_length_eq, SimpleGraph.Walk.length_reverse] at hn
      omega
    obtain ⟨y, h2, q2, hq2⟩ := SimpleGraph.Walk.not_nil_iff.mp hqn
    have hmem : s(m, y) ∈ q.edges := by
      rw [← List.mem_reverse, ← SimpleGraph.Walk.edges_reverse, hq2,
        SimpleGraph.Walk.edges_cons]
      exact List.mem_cons_self _ _
    have hnd : (SimpleGraph.Walk.cons h q).edges.Nodup :=
      hc.toIsCircuit.toIsTrail.edges_nodup
    rw [SimpleGraph.Walk.edges_cons] at hnd
    have hnotin : s(m, x) ∉ q.edges := (List.nodup_cons.mp hnd).1
    refine ⟨x, y, ?_, h, h2, ?_, ?_⟩
    · intro he
      rw [← he] at hmem
      exact hnotin hmem
    · rw [SimpleGraph.Walk.support_cons]
      exact List.mem_cons_of_mem m q.start_mem_support
    · rw [SimpleGraph.Walk.support_cons]
      refine List.mem_cons_of_mem m ?_
      rw [← List.mem_reverse, ← SimpleGraph.Walk.support_reverse, hq2,
        SimpleGraph.Walk.support_cons]
      exact List.mem_cons_of_mem m q2.start_mem_support

/-- A graph with an injective rank function whose minimum is a root and
where every non-root vertex has at most one lower-ranked neighbour is
acyclic. -/
theorem acyclic_of_rank {V : Type} [DecidableEq V] (G : SimpleGraph V) (ord : V → Nat) (r : V)
    (hinj : ∀ u v : V, ord u = ord v → u = v)
    (hmin : ∀ v, ord r ≤ ord v)
    (hone : ∀ v, v ≠ r → ∀ u1 u2, G.Adj u1 v → G.Adj u2 v →
        ord u1 < ord v → ord u2 < ord v → u1 = u2) :
    G.IsAcyclic := by
  intro v c hc
  have hsup_ne : c.support ≠ [] := SimpleGraph.Walk.support_ne_nil c
  obtain ⟨w, hw⟩ : ∃ w, w ∈ c.support.argmax ord := by
    cases hma : c.support.argmax ord with
    | none => exact absurd (List.argmax_eq_none.mp hma) hsup_ne
    | some w => exact ⟨w, rfl⟩
  have hw_mem : w ∈ c.support := List.argmax_mem hw
  have hmax : ∀ x ∈ c.support, ord x ≤ ord w := fun x hx => List.le_of_mem_argmax hx hw
  have hc' : (c.rotate hw_mem).IsCycle := hc.rotate hw_mem
  have hrot := SimpleGraph.Walk.support_rotate c hw_mem
  have hmax' : ∀ x ∈ (c.rotate hw_mem).support, ord x ≤ ord w := by
    intro x hx
    rw [SimpleGraph.Walk.support_eq_cons] at hx
    rcases List.mem_cons.mp hx with rfl | hx2
    · exact le_refl _
    · exact hmax x (List.mem_of_mem_tail (hrot.mem_iff.mp hx2))
  obtain ⟨x, y, hxy, hax, hay, hxs, hys⟩ := cycle_neighbors (c.rotate hw_mem) hc'
  have hx_lt : ord x < ord w :=
    lt_of_le_of_ne (hmax' x hxs) (fun he => hax.ne (hinj x w he).symm)
  have hy_lt : ord y < ord w :=
    lt_of_le_of_ne (hmax' y hys) (fun he => hay.ne (hinj y w he).symm)
  have hwr : w ≠ r := by
    intro he
    rw [he] at hx_lt
    exact absurd (hmin x) (by omega)
  exact hxy (hone w hwr x y hax.symm hay.symm hx_lt hy_lt)

/-- C1.  For every width `W ≥ 1`, height `H ≥ 1` and every random source,
the maze returned by `Generator::generate` satisfies the spanning-tree
property: the graph on the `W*H` cells, with an edge between a cell and its
north neighbour exactly when the cell has `north_open` and between a cell
and its west neighbour exactly when it has `west_open`, is a tree — it is
connected and acyclic, and it has exactly `W*H - 1` open edges. -/
theorem C1_spanning_tree (W H : Nat) (pool : List Nat) (dirs : Nat → List Direction)
    (fuel : Nat) (m : Maze) (hW : 1 ≤ W) (hH : 1 ≤ H)
    (hgen : generate W H pool dirs fuel = some m) :
    (mazeGraph m).IsTree ∧ (mazeGraph m).edgeFinset.card + 1 = W * H := by
  have hWH : W * H ≠ 0 := Nat.mul_ne_zero (by omega) (by omega)
  rw [generate] at hgen
  rw [if_neg hWH] at hgen
  cases hcs : choose_walk_start (List.replicate (W * H) GCell.Empty) pool with
  | none => rw [hcs] at hgen; exact absurd hgen (by simp)
  | some p =>
    obtain ⟨os, pool1⟩ := p
    cases os with
    | none =>
      simp only [hcs] at hgen
      exact Option.noConfusion hgen
    | some init =>
      simp only [hcs] at hgen
      cases hout : outerLoop W H dirs fuel fuel 0
          ((List.replicate (W * H) GCell.Empty).set init
            (.InMaze (MazeCell.new false false))) pool1 with
      | none => simp only [hout] at hgen; exact Option.noConfusion hgen
      | some cellsF =>
        simp only [hout] at hgen
        cases hext : extractCells cellsF with
        | none => simp only [hext] at hgen; exact Option.noConfusion hgen
        | some mcs =>
          simp only [hext] at hgen
          obtain rfl : (⟨mcs, W, H⟩ : Maze) = m := Option.some.inj hgen
          obtain ⟨⟨c0, hc0, -⟩, -⟩ :=
            choose_walk_start_some_spec (List.replicate (W * H) GCell.Empty)
              pool init pool1 hcs
          have hinit : init < W * H := by
            have := lt_of_get?_some hc0
            simpa using this
          have hinvF : Inv W H cellsF :=
            outerLoop_preserves_inv W H hW dirs fuel fuel 0 _ pool1 cellsF
              (Inv_initial W H init hinit) hout
          have hlenF : cellsF.length = W * H := hinvF.len
          obtain ⟨hlm, hpt⟩ := extractCells_some cellsF mcs hext
          have hall : ∀ i, i < W * H → gInMaze cellsF i := by
            intro i hi
            have hi' : i < mcs.length := by rw [hlm, hlenF]; exact hi
            have hmg : mcs.get? i = some (mcs.get ⟨i, hi'⟩) := List.get?_eq_get hi'
            exact ⟨mcs.get ⟨i, hi'⟩, (hpt i _).mp hmg⟩
          have hbitN : ∀ i, (mazeBitN ⟨mcs, W, H⟩ i = true) ↔ gBitN cellsF i := by
            intro i
            show (match mcs.get? i with
              | some mc => mc.north_open
              | none => false) = true ↔ gBitN cellsF i
            constructor
            · intro hb
              cases hg : mcs.get? i with
              | none => rw [hg] at hb; exact absurd hb (by simp)
              | some mc =>
                rw [hg] at hb
                exact ⟨mc, (hpt i mc).mp hg, hb⟩
            · rintro ⟨mc, hmc, hb⟩
              rw [(hpt i mc).mpr hmc]
              exact hb
          have hbitW : ∀ i, (mazeBitW ⟨mcs, W, H⟩ i = true) ↔ gBitW cellsF i := by
            intro i
            show (match mcs.get? i with
              | some mc => mc.west_open
              | none => false) = true ↔ gBitW cellsF i
            constructor
            · intro hb
              cases hg : mcs.get? i with
              | none => rw [hg] at hb; exact absurd hb (by simp)
              | some mc =>
                rw [hg] at hb
                exact ⟨mc, (hpt i mc).mp hg, hb⟩
            · rintro ⟨mc, hmc, hb⟩
              rw [(hpt i mc).mpr hmc]
              exact hb
          have hedge : ∀ u v, (mazeEdgeB ⟨mcs, W, H⟩ u v = true) ↔ gEdge W cellsF u v := by
            intro u v
            rw [mazeEdgeB, Bool.or_eq_true, Bool.and_eq_true, Bool.and_eq_true,
              Bool.and_eq_true, Bool.and_eq_true, decide_eq_true_iff, decide_eq_true_iff,
              decide_eq_true_iff, decide_eq_true_iff]
            rw [gEdge]
            constructor
            · rintro (⟨⟨hb, h1⟩, h2⟩ | ⟨⟨hb, h1⟩, h2⟩)
              · exact Or.inl ⟨(hbitN u).mp hb, h1, h2⟩
              · exact Or.inr ⟨(hbitW u).mp hb, h1, h2⟩
            · rintro (⟨hb, h1, h2⟩ | ⟨hb, h1, h2⟩)
              · exact Or.inl ⟨⟨(hbitN u).mpr hb, h1⟩, h2⟩
              · exact Or.inr ⟨⟨(hbitW u).mpr hb, h1⟩, h2⟩
          have key : ∀ u v2, gReach W cellsF u v2 → ∀ (hu : u < W * H) (hv : v2 < W * H),
              (mazeGraph ⟨mcs, W, H⟩).Reachable ⟨u, hu⟩ ⟨v2, hv⟩ := by
            intro u v2 h
            induction h with
            | refl => intro hu hv; exact SimpleGraph.Reachable.refl _
            | @tail b c2 hab hbc ih =>
              intro hu hv
              have hblt : b < W * H := by
                rcases hbc with he | he
                · have := gEdge_lt hW he
                  omega
                · have := gEdge_lt hW he
                  omega
              have hbc_ne : b ≠ c2 := by
                rcases hbc with he | he
                · have := gEdge_lt hW he
                  omega
                · have := gEdge_lt hW he
                  omega
              refine (ih hu hblt).trans (SimpleGraph.Adj.reachable ?_)
              show ((mazeEdgeB ⟨mcs, W, H⟩ b c2 || mazeEdgeB ⟨mcs, W, H⟩ c2 b) = true)
                ∧ (⟨b, hblt⟩ : Fin (W * H)) ≠ ⟨c2, hv⟩
              refine ⟨?_, ?_⟩
              · rw [Bool.or_eq_true]
                rcases hbc with he | he
                · exact Or.inl ((hedge b c2).mpr he)
                · exact Or.inr ((hedge c2 b).mpr he)
              · intro hfe
                exact hbc_ne (congrArg Fin.val hfe)
          have hconn : (mazeGraph ⟨mcs, W, H⟩).Connected := by
            rw [SimpleGraph.connected_iff]
            refine ⟨?_, ⟨⟨0, Nat.pos_of_ne_zero hWH⟩⟩⟩
            intro a b
            have hr : gReach W cellsF a.val b.val :=
              hinvF.conn a.val b.val (hall a.val a.isLt) (hall b.val b.isLt)
            have := key a.val b.val hr a.isLt b.isLt
            exact this
          obtain ⟨ord, r, hrIn, hrMin, hInj, hAtMost⟩ := hinvF.rank
          have hrlt : r < W * H := by
            obtain ⟨mcr, hmcr⟩ := hrIn
            have := lt_of_get?_some hmcr
            omega
          have hacyc : (mazeGraph ⟨mcs, W, H⟩).IsAcyclic := by
            refine acyclic_of_rank _ (fun a => ord a.val) ⟨r, hrlt⟩ ?_ ?_ ?_
            · intro a b heq
              exact Fin.ext (hInj a.val b.val (hall a.val a.isLt) (hall b.val b.isLt) heq)
            · intro a
              exact hrMin a.val (hall a.val a.isLt)
            · intro vF hvr u1 u2 ha1 ha2 hl1 hl2
              have hvne : vF.val ≠ r := fun hev => hvr (Fin.ext hev)
              have hg1 : gAdj W cellsF u1.val vF.val := by
                have ha1' : ((mazeEdgeB ⟨mcs, W, H⟩ u1.val vF.val
                    || mazeEdgeB ⟨mcs, W, H⟩ vF.val u1.val) = true) ∧ u1 ≠ vF := ha1
                rcases Bool.or_eq_true _ _ |>.mp ha1'.1 with he | he
                · exact Or.inl ((hedge _ _).mp he)
                · exact Or.inr ((hedge _ _).mp he)
              have hg2 : gAdj W cellsF u2.val vF.val := by
                have ha2' : ((mazeEdgeB ⟨mcs, W, H⟩ u2.val vF.val
                    || mazeEdgeB ⟨mcs, W, H⟩ vF.val u2.val) = true) ∧ u2 ≠ vF := ha2
                rcases Bool.or_eq_true _ _ |>.mp ha2'.1 with he | he
                · exact Or.inl ((hedge _ _).mp he)
                · exact Or.inr ((hedge _ _).mp he)
              exact Fin.ext (hAtMost vF.val (hall vF.val vF.isLt) hvne u1.val u2.val
                hg1 hg2 hl1 hl2)
          have htree : (mazeGraph ⟨mcs, W, H⟩).IsTree := ⟨hconn, hacyc⟩
          refine ⟨htree, ?_⟩
          have hcard := htree.card_edgeFinset
          simpa using hcard

/-- Witness for C1: the `1 × 2` grid with pool `[1, 0]`; the generated maze
is `⟨[bits 0, bits 2], 1, 2⟩` (cell 1's north wall open), whose open-wall
graph is a tree with one edge. -/
theorem C1_spanning_tree_witness :
    (mazeGraph ⟨[⟨0⟩, ⟨2⟩], 1, 2⟩).IsTree
    ∧ (mazeGraph ⟨[⟨0⟩, ⟨2⟩], 1, 2⟩).edgeFinset.card + 1 = 1 * 2 :=
  C1_spanning_tree 1 2 [1, 0] (fun _ => [.North, .South, .East, .West]) 5
    ⟨[⟨0⟩, ⟨2⟩], 1, 2⟩ (by decide) (by decide) (by decide)

end Dadalus
